import Mathlib

/-!
Verification of the picSec crypto core (`packages/crypto/src`).

The TypeScript sources are shallowly embedded over `Nat`:

* JavaScript strings are modelled as lists of UTF-16 code units (`JStr`);
* byte buffers (`Uint8Array`) are lists of naturals, with explicit
  `< 256` side conditions where the code relies on byte range;
* fallible operations (`throw`) return `Except CryptoError`;
* the randomness consumed by `nacl.randomBytes` / `Math.random` is passed
  in explicitly (a nonce argument, a stream of draws).

The third-party primitives (`tweetnacl`, `tweetnacl-util`, `bip39`) are
modelled executably.  Base64 is the real RFC 4648 codec with the strict
validation of `tweetnacl-util`.  The AEAD primitives are idealized: the
Poly1305 authenticator is replaced by a perfectly binding tag (an
injective code of key, nonce and message, offset beyond the byte range so
that it can never alias genuine byte content).  Such idealized payloads
are carried by an injective model-only extension of the Base64 encoder;
on genuine byte arrays — the only inputs the real library ever receives —
the model is exactly standard Base64.
-/

namespace PicSec

/-- A JavaScript string, as its list of UTF-16 code units. -/
abbrev JStr := List Nat

/-- Interpret a list of bytes as a natural number, little-endian base 256. -/
def fromBase256 : List Nat → Nat
  | [] => 0
  | b :: rest => b + 256 * fromBase256 rest

/-- Injective code of a byte list (value and length). -/
def natsCode (l : List Nat) : Nat :=
  Nat.pair (fromBase256 l) l.length

/-! ## Base64 (model of `tweetnacl-util` `encodeBase64` / `decodeBase64`) -/

/-- The RFC 4648 alphabet, as a code for each sextet. -/
def sextetCode (n : Nat) : Nat :=
  if n < 26 then 65 + n
  else if n < 52 then 97 + (n - 26)
  else if n < 62 then 48 + (n - 52)
  else if n = 62 then 43
  else 47

/-- Inverse of the alphabet; `none` for codes outside it (including `=`). -/
def codeSextet (c : Nat) : Option Nat :=
  if 65 ≤ c ∧ c ≤ 90 then some (c - 65)
  else if 97 ≤ c ∧ c ≤ 122 then some (26 + (c - 97))
  else if 48 ≤ c ∧ c ≤ 57 then some (52 + (c - 48))
  else if c = 43 then some 62
  else if c = 47 then some 63
  else none

/-- RFC 4648 encoding of a byte list, three bytes to four alphabet codes,
with `=` (code 61) padding. -/
def b64EncodeBytes : List Nat → List Nat
  | [] => []
  | [b0] => [sextetCode (b0 / 4), sextetCode (b0 % 4 * 16), 61, 61]
  | [b0, b1] => [sextetCode (b0 / 4), sextetCode (b0 % 4 * 16 + b1 / 16),
      sextetCode (b1 % 16 * 4), 61]
  | b0 :: b1 :: b2 :: rest =>
      sextetCode (b0 / 4) :: sextetCode (b0 % 4 * 16 + b1 / 16) ::
      sextetCode (b1 % 16 * 4 + b2 / 64) :: sextetCode (b2 % 64) ::
      b64EncodeBytes rest

/-- Strict Base64 decoding: length a multiple of four, padding only at the
end, as enforced by the validation regex of `tweetnacl-util` (whose
`decodeBase64` throws on any other input; like `atob` it does not reject
non-zero discarded low bits). -/
def b64DecodeCodes : List Nat → Option (List Nat)
  | [] => some []
  | c0 :: c1 :: c2 :: c3 :: rest =>
    match codeSextet c0, codeSextet c1 with
    | some s0, some s1 =>
      if c2 = 61 then
        if c3 = 61 ∧ rest = [] then some [s0 * 4 + s1 / 16] else none
      else
        match codeSextet c2 with
        | some s2 =>
          if c3 = 61 then
            if rest = [] then some [s0 * 4 + s1 / 16, s1 % 16 * 16 + s2 / 4]
            else none
          else
            match codeSextet c3, b64DecodeCodes rest with
            | some s3, some tail =>
                some ((s0 * 4 + s1 / 16) :: (s1 % 16 * 16 + s2 / 4) ::
                  (s2 % 4 * 64 + s3) :: tail)
            | _, _ => none
        | none => none
    | _, _ => none
  | _ => none

/-- Model of `encodeBase64`.  On byte arrays (every entry `< 256`) this is
exactly RFC 4648.  The idealized AEAD tags below contain one out-of-range
entry; such model-only lists are injected behind the non-Base64 marker
code 33 (`!`), keeping the encoder injective and invertible. -/
def encodeBase64 (bs : List Nat) : JStr :=
  if bs.all (· < 256) then b64EncodeBytes bs else 33 :: bs

/-- Model of `decodeBase64`, with `none` for the thrown `TypeError`. -/
def decodeBase64Opt (s : JStr) : Option (List Nat) :=
  match s with
  | [] => b64DecodeCodes []
  | c :: rest => if c = 33 then some rest else b64DecodeCodes (c :: rest)

/-! ## Idealized NaCl primitives (`tweetnacl`) -/

inductive CryptoError
  | invalidKey
  | invalidSymmetricKey
  | invalidRecipientPublicKey
  | invalidSenderPrivateKey
  | invalidSenderPublicKey
  | invalidRecipientPrivateKey
  | badEncoding
  | payloadTooShort
  | unknownVersion
  | unsupportedVersion
  | decryptionFailed
  | corruptKey
  | invalidPhrase
  | outOfRange
  deriving DecidableEq, Repr

/-- XSalsa20 keystream model: one byte per position, derived from key and
nonce. -/
def keystream (k n : List Nat) (i : Nat) : Nat :=
  (fromBase256 k + fromBase256 n + i) % 256

/-- Stream-cipher encryption of the message body, starting at position `i`. -/
def maskFrom (k n : List Nat) : Nat → List Nat → List Nat
  | _, [] => []
  | i, b :: rest => (b + keystream k n i) % 256 :: maskFrom k n (i + 1) rest

/-- Inverse of `maskFrom`. -/
def unmaskFrom (k n : List Nat) : Nat → List Nat → List Nat
  | _, [] => []
  | i, c :: rest => (c + (256 - keystream k n i)) % 256 :: unmaskFrom k n (i + 1) rest

/-- Perfectly binding authenticator: an injective code of key, nonce and
message. -/
def tagCode (k n m : List Nat) : Nat :=
  Nat.pair (natsCode k) (Nat.pair (natsCode n) (natsCode m))

/-- The 16-byte Poly1305 tag slot; its first entry holds the idealized
authenticator, offset by 256 so that it never aliases a genuine byte. -/
def tagBlock (k n m : List Nat) : List Nat :=
  (256 + tagCode k n m) :: List.replicate 15 0

/-- Model of `nacl.secretbox`: 16 bytes of authenticator followed by the
masked message (total length `m.length + 16`, as in NaCl). -/
def secretbox (m n k : List Nat) : List Nat :=
  tagBlock k n m ++ maskFrom k n 0 m

/-- Model of `nacl.secretbox.open`: `null` (here `none`) when the box is
shorter than the 16-byte overhead or the authenticator does not match. -/
def secretboxOpen (c n k : List Nat) : Option (List Nat) :=
  if c.length < 16 then none
  else
    let m := unmaskFrom k n 0 (c.drop 16)
    if c.take 16 = tagBlock k n m then some m else none

/-- X25519 scalar-basepoint multiplication, modelled as an injective map on
32-byte scalars (the identity in the model). -/
def pubOf (priv : List Nat) : List Nat := priv

/-- X25519 shared secret of `crypto_box_beforenm`: a symmetric, injective
function of the unordered pair of the two parties' public keys. -/
def sharedKey (pub priv : List Nat) : List Nat :=
  [Nat.pair (min (natsCode pub) (natsCode (pubOf priv)))
            (max (natsCode pub) (natsCode (pubOf priv)))]

/-- Model of `nacl.box`. -/
def box (m n pub priv : List Nat) : List Nat :=
  secretbox m n (sharedKey pub priv)

/-- Model of `nacl.box.open`. -/
def boxOpen (c n pub priv : List Nat) : Option (List Nat) :=
  secretboxOpen c n (sharedKey pub priv)

/-- Model of `nacl.hash` (SHA-512): 64 deterministic bytes. -/
def naclHash (m : List Nat) : List Nat :=
  (List.range 64).map (fun i => (fromBase256 m + m.length + i) % 256)

/-! ## `constants.ts` -/

def CURRENT_PAYLOAD_VERSION : Nat := 1

def PAYLOAD_STRUCTURE_VERSION_BYTES : Nat := 1
def PAYLOAD_STRUCTURE_NONCE_BYTES : Nat := 24
def PAYLOAD_STRUCTURE_AUTH_TAG_BYTES : Nat := 16

def SEED_PHRASE_CONFIG_WORD_COUNT : Nat := 12
def SEED_PHRASE_CONFIG_ENTROPY_BITS : Nat := 128

def KEY_LENGTHS_SECRET_KEY : Nat := 32
def KEY_LENGTHS_PUBLIC_KEY : Nat := 32
def KEY_LENGTHS_PRIVATE_KEY : Nat := 32
def KEY_LENGTHS_NONCE : Nat := 24


/-! ## `crypto.ts` — symmetric payload encryption (`encrypt` / `decrypt`)

`encrypt` draws a fresh random 24-byte nonce per call; the draw is passed
in as the explicit `nonce` argument. -/

def encrypt (data : List Nat) (key : JStr) (nonce : List Nat) :
    Except CryptoError JStr :=
  match decodeBase64Opt key with
  | none => .error .badEncoding
  | some keyBytes =>
    if keyBytes.length ≠ KEY_LENGTHS_SECRET_KEY then
      .error .invalidKey
    else
      let ciphertext := secretbox data nonce keyBytes
      .ok (encodeBase64 (CURRENT_PAYLOAD_VERSION :: nonce ++ ciphertext))

/-- Version 1 decryption: nonce at bytes `1..24`, ciphertext from byte 25. -/
def decryptV1 (payloadBytes keyBytes : List Nat) :
    Except CryptoError (List Nat) :=
  let nonce := (payloadBytes.drop 1).take 24
  let ciphertext := payloadBytes.drop 25
  match secretboxOpen ciphertext nonce keyBytes with
  | none => .error .decryptionFailed
  | some decrypted => .ok decrypted

def decrypt (payload key : JStr) : Except CryptoError (List Nat) :=
  match decodeBase64Opt payload with
  | none => .error .badEncoding
  | some payloadBytes =>
    match decodeBase64Opt key with
    | none => .error .badEncoding
    | some keyBytes =>
      if keyBytes.length ≠ KEY_LENGTHS_SECRET_KEY then
        .error .invalidKey
      else
        let minLength := PAYLOAD_STRUCTURE_VERSION_BYTES +
          PAYLOAD_STRUCTURE_NONCE_BYTES + PAYLOAD_STRUCTURE_AUTH_TAG_BYTES
        if payloadBytes.length < minLength then
          .error .payloadTooShort
        else
          let version := payloadBytes.headD 0
          if version > CURRENT_PAYLOAD_VERSION then
            .error .unknownVersion
          else if version = 1 then
            decryptV1 payloadBytes keyBytes
          else
            .error .unsupportedVersion

/-! ## `keys.ts` — key validation helpers -/

def validateKey (key : JStr) (expectedLength : Nat) : Bool :=
  match decodeBase64Opt key with
  | some decoded => decoded.length == expectedLength
  | none => false

def validatePublicKey (key : JStr) : Bool :=
  validateKey key KEY_LENGTHS_PUBLIC_KEY

def validatePrivateKey (key : JStr) : Bool :=
  validateKey key KEY_LENGTHS_PRIVATE_KEY

def validateSymmetricKey (key : JStr) : Bool :=
  validateKey key KEY_LENGTHS_SECRET_KEY

/-! ## `share.ts` — key exchange and gallery key distribution -/

def encryptKeyForRecipient (symmetricKey recipientPublicKey senderPrivateKey : JStr)
    (nonce : List Nat) : Except CryptoError JStr :=
  match decodeBase64Opt symmetricKey with
  | none => .error .badEncoding
  | some keyBytes =>
    match decodeBase64Opt recipientPublicKey with
    | none => .error .badEncoding
    | some recipientPub =>
      match decodeBase64Opt senderPrivateKey with
      | none => .error .badEncoding
      | some senderPriv =>
        if keyBytes.length ≠ KEY_LENGTHS_SECRET_KEY then
          .error .invalidSymmetricKey
        else if recipientPub.length ≠ KEY_LENGTHS_PUBLIC_KEY then
          .error .invalidRecipientPublicKey
        else if senderPriv.length ≠ KEY_LENGTHS_PRIVATE_KEY then
          .error .invalidSenderPrivateKey
        else
          let ciphertext := box keyBytes nonce recipientPub senderPriv
          .ok (encodeBase64 (CURRENT_PAYLOAD_VERSION :: nonce ++ ciphertext))

def decryptKeyFromSender (encryptedKey senderPublicKey recipientPrivateKey : JStr) :
    Except CryptoError JStr :=
  match decodeBase64Opt encryptedKey with
  | none => .error .badEncoding
  | some payloadBytes =>
   match decodeBase64Opt senderPublicKey with
   | none => .error .badEncoding
   | some senderPub =>
    match decodeBase64Opt recipientPrivateKey with
    | none => .error .badEncoding
    | some recipientPriv =>
     if senderPub.length ≠ KEY_LENGTHS_PUBLIC_KEY then
      .error .invalidSenderPublicKey
     else if recipientPriv.length ≠ KEY_LENGTHS_PRIVATE_KEY then
      .error .invalidRecipientPrivateKey
     else
      let minLength := PAYLOAD_STRUCTURE_VERSION_BYTES +
        PAYLOAD_STRUCTURE_NONCE_BYTES + KEY_LENGTHS_SECRET_KEY +
        PAYLOAD_STRUCTURE_AUTH_TAG_BYTES
      if payloadBytes.length < minLength then
        .error .payloadTooShort
      else
        let version := payloadBytes.headD 0
        if version > CURRENT_PAYLOAD_VERSION then
          .error .unknownVersion
        else
          let nonce := (payloadBytes.drop 1).take 24
          let ciphertext := payloadBytes.drop 25
          match boxOpen ciphertext nonce senderPub recipientPriv with
          | none => .error .decryptionFailed
          | some decrypted =>
              if decrypted.length ≠ KEY_LENGTHS_SECRET_KEY then
                .error .corruptKey
              else
                .ok (encodeBase64 decrypted)

structure Recipient where
  userId : JStr
  publicKey : JStr
  deriving DecidableEq, Repr

structure MemberGrant where
  userId : JStr
  encryptedGalleryKey : JStr
  deriving DecidableEq, Repr

instance : Inhabited Recipient := ⟨⟨[], []⟩⟩
instance : Inhabited MemberGrant := ⟨⟨[], []⟩⟩

/-- `Array.prototype.map` over a throwing callback: the first exception
aborts the whole map. -/
def mapExcept (f : α → Except CryptoError β) : List α → Except CryptoError (List β)
  | [] => .ok []
  | a :: l =>
    match f a with
    | .error e => .error e
    | .ok b =>
      match mapExcept f l with
      | .error e => .error e
      | .ok bs => .ok (b :: bs)

/-- `encryptGalleryKeyForMembers`; each recipient's call to
`encryptKeyForRecipient` consumes its own fresh random nonce, supplied
here as the `nonces` list (one draw per recipient, in order). -/
def encryptGalleryKeyForMembers (galleryKey : JStr) (recipients : List Recipient)
    (senderPrivateKey : JStr) (nonces : List (List Nat)) :
    Except CryptoError (List MemberGrant) :=
  mapExcept
    (fun rn =>
      match encryptKeyForRecipient galleryKey rn.1.publicKey senderPrivateKey rn.2 with
      | .error e => .error e
      | .ok ek => .ok ⟨rn.1.userId, ek⟩)
    (recipients.zip nonces)

def encryptGalleryKeyForAdmin (galleryKey adminPublicKey reporterPrivateKey : JStr)
    (nonce : List Nat) : Except CryptoError JStr :=
  encryptKeyForRecipient galleryKey adminPublicKey reporterPrivateKey nonce

/-! ## JavaScript string helpers used by `seedPhrase.ts`

`phrase.trim().toLowerCase().split(/\s+/)` and `bip39`'s internal
`mnemonic.split(' ')`.  Whitespace is modelled by the ASCII whitespace
codes. -/

def isWsCode (c : Nat) : Bool :=
  c = 32 ∨ c = 9 ∨ c = 10 ∨ c = 11 ∨ c = 12 ∨ c = 13

/-- `String.prototype.toLowerCase`, ASCII range. -/
def jsToLowerCode (c : Nat) : Nat :=
  if 65 ≤ c ∧ c ≤ 90 then c + 32 else c

def lowerStr (s : JStr) : JStr := s.map jsToLowerCode

/-- `String.prototype.trim`. -/
def jsTrim (s : JStr) : JStr :=
  ((s.dropWhile isWsCode).reverse.dropWhile isWsCode).reverse

/-- The maximal runs of non-whitespace characters of `s`, built from the
right: a non-whitespace character either starts a new run (when followed
by whitespace or the end) or extends the run that follows it. -/
def wordsOf : JStr → List JStr
  | [] => []
  | [c] => if isWsCode c then [] else [[c]]
  | c :: d :: cs =>
    if isWsCode c then wordsOf (d :: cs)
    else
      if isWsCode d then [c] :: wordsOf (d :: cs)
      else
        match wordsOf (d :: cs) with
        | w :: rest => (c :: w) :: rest
        | [] => [[c]]

/-- `s.split(/\s+/)` for an already trimmed `s` (the only way the source
uses it): JavaScript returns `[""]` on the empty string and the
whitespace-separated words otherwise. -/
def jsSplitWs (s : JStr) : List JStr :=
  if s.isEmpty then [[]] else wordsOf s

/-- `Array.prototype.join(' ')` (on word lists): concatenation with a
single space between pieces. -/
def joinSpace : List JStr → JStr
  | [] => []
  | [w] => w
  | w :: rest => w ++ 32 :: joinSpace rest

/-- `s.split(' ')`: splits at every single space, keeping empty pieces. -/
def splitSingleSpace : JStr → List JStr
  | [] => [[]]
  | c :: rest =>
    if c = 32 then [] :: splitSingleSpace rest
    else
      match splitSingleSpace rest with
      | piece :: more => (c :: piece) :: more
      | [] => [[c]]

/-! ## bip39 model

The 2048-word list is modelled by a synthetic injective encoding
`wordCodes` (letter `w` followed by three base-32 "digits" drawn from
lowercase-stable, non-whitespace codes), with the index lookup
`wordIndexOf` as its arithmetic inverse.  The checksum (the first
`ENT / 32` bits of SHA-256 in real bip39) is modelled by a deterministic
function of the entropy. -/

def wordCodes (i : Nat) : JStr :=
  [119, 97 + i / 1024, 97 + i / 32 % 32, 97 + i % 32]

/-- Sequence an option-returning map over a list (the shape of bip39's
word-by-word index lookup, which throws on the first unknown word). -/
def mapOption {α β : Type} (f : α → Option β) : List α → Option (List β)
  | [] => some []
  | a :: l =>
    match f a, mapOption f l with
    | some b, some bs => some (b :: bs)
    | _, _ => none

def wordIndexOf (w : JStr) : Option Nat :=
  match w with
  | [119, a, b, c] =>
    if 97 ≤ a ∧ a < 99 ∧ 97 ≤ b ∧ b < 129 ∧ 97 ≤ c ∧ c < 129 then
      some ((a - 97) * 1024 + (b - 97) * 32 + (c - 97))
    else none
  | _ => none

/-- The eight bits of a byte, most significant first. -/
def byteToBits (b : Nat) : List Nat :=
  [b / 128 % 2, b / 64 % 2, b / 32 % 2, b / 16 % 2,
   b / 8 % 2, b / 4 % 2, b / 2 % 2, b % 2]

def bytesToBits : List Nat → List Nat
  | [] => []
  | b :: rest => byteToBits b ++ bytesToBits rest

/-- Reassemble bits (most significant first) into bytes; a trailing
partial chunk is dropped. -/
def bitsToBytes : List Nat → List Nat
  | b0 :: b1 :: b2 :: b3 :: b4 :: b5 :: b6 :: b7 :: rest =>
      (128 * b0 + 64 * b1 + 32 * b2 + 16 * b3 + 8 * b4 + 4 * b5 + 2 * b6 + b7) ::
        bitsToBytes rest
  | _ => []

/-- Big-endian value of a bit list. -/
def bitsToNatBE (bits : List Nat) : Nat :=
  bits.foldl (fun a b => 2 * a + b) 0

/-- The `width` low bits of `n`, most significant first. -/
def natToBits : Nat → Nat → List Nat
  | 0, _ => []
  | w + 1, n => (n / 2 ^ w % 2) :: natToBits w n

/-- Cut a bit string into 11-bit groups (a trailing short group kept). -/
def chunk11 : List Nat → List (List Nat)
  | [] => []
  | b0 :: b1 :: b2 :: b3 :: b4 :: b5 :: b6 :: b7 :: b8 :: b9 :: b10 :: rest =>
      [b0, b1, b2, b3, b4, b5, b6, b7, b8, b9, b10] :: chunk11 rest
  | l => [l]

/-- Model of bip39's `deriveChecksumBits`: `ENT / 32` bits deterministically
derived from the entropy (first bits of SHA-256 in the real library). -/
def deriveChecksumBits (entropy : List Nat) : List Nat :=
  natToBits (entropy.length / 4) (fromBase256 entropy)

/-- Model of `bip39.mnemonicToEntropy`, with `none` for a throw. -/
def mnemonicToEntropyOpt (mnemonic : JStr) : Option (List Nat) :=
  let words := splitSingleSpace mnemonic
  if words.length % 3 ≠ 0 then none
  else
    match mapOption wordIndexOf words with
    | none => none
    | some idxs =>
      let bits := idxs.foldr (fun i acc => natToBits 11 i ++ acc) []
      let dividerIndex := bits.length / 33 * 32
      let entropyBits := bits.take dividerIndex
      let checksumBits := bits.drop dividerIndex
      let entropy := bitsToBytes entropyBits
      if entropy.length < 16 ∨ 32 < entropy.length ∨ entropy.length % 4 ≠ 0 then
        none
      else if checksumBits = deriveChecksumBits entropy then some entropy
      else none

/-- Model of `bip39.validateMnemonic`. -/
def validateMnemonic (mnemonic : JStr) : Bool :=
  (mnemonicToEntropyOpt mnemonic).isSome

/-- Model of `bip39.entropyToMnemonic` (used by `generateMnemonic`). -/
def entropyToMnemonic (entropy : List Nat) : JStr :=
  let bits := bytesToBits entropy ++ deriveChecksumBits entropy
  let idxs := (chunk11 bits).map bitsToNatBE
  joinSpace (idxs.map wordCodes)

/-! ## `seedPhrase.ts` -/

def validateSeedPhrase (phrase : JStr) : Bool :=
  let words := jsSplitWs (lowerStr (jsTrim phrase))
  if words.length ≠ SEED_PHRASE_CONFIG_WORD_COUNT then false
  else validateMnemonic (lowerStr (jsTrim phrase))

def normalizeSeedPhrase (phrase : JStr) : JStr :=
  joinSpace (jsSplitWs (lowerStr (jsTrim phrase)))

def seedPhraseToEntropy (phrase : JStr) : Except CryptoError (List Nat) :=
  let normalized := normalizeSeedPhrase phrase
  if validateSeedPhrase normalized = false then
    .error .invalidPhrase
  else
    match mnemonicToEntropyOpt normalized with
    | some entropy => .ok entropy
    | none => .error .invalidPhrase

/-! ## `keys.ts` — key derivation -/

structure UserKeyPair where
  publicKey : JStr
  privateKey : JStr
  deriving DecidableEq, Repr

def deriveKeyPairFromSeedPhrase (seedPhrase : JStr) :
    Except CryptoError UserKeyPair :=
  let normalized := normalizeSeedPhrase seedPhrase
  if validateSeedPhrase normalized = false then
    .error .invalidPhrase
  else
    match seedPhraseToEntropy normalized with
    | .error e => .error e
    | .ok entropy =>
      let hash := naclHash entropy
      let seed := hash.take KEY_LENGTHS_PRIVATE_KEY
      .ok ⟨encodeBase64 (pubOf seed), encodeBase64 seed⟩

/-! ## `generateQuizPositions`

The `while` loop draws from `Math.random`; the draws (already scaled to
positions `1..12`) are supplied as the stream `draws`.  `quizAfter draws k`
is the `Set` after `k` loop iterations; the loop exits as soon as the set
reaches `count` elements. -/

def quizAfter (draws : Nat → Nat) : Nat → Finset Nat
  | 0 => ∅
  | k + 1 => insert (draws k) (quizAfter draws k)

/-- The loop of `generateQuizPositions` terminates on this draw stream. -/
def QuizTerminates (draws : Nat → Nat) (count : Nat) : Prop :=
  ∃ k, count ≤ (quizAfter draws k).card

instance (draws : Nat → Nat) (count : Nat) : DecidablePred
    (fun k => count ≤ (quizAfter draws k).card) := fun _ => inferInstance

/-- `generateQuizPositions`: run the loop to its first exit, then
`Array.from(positions).sort((a, b) => a - b)`. -/
def generateQuizPositions (draws : Nat → Nat) (count : Nat)
    (h : QuizTerminates draws count) : List Nat :=
  (quizAfter draws (Nat.find h)).sort (· ≤ ·)

/-! # Lemmas -/

/-! ## Base64 -/

theorem codeSextet_sextetCode : ∀ n < 64, codeSextet (sextetCode n) = some n := by
  decide

theorem sextetCode_ne_61 : ∀ n < 64, sextetCode n ≠ 61 := by decide

theorem sextetCode_ne_33 : ∀ n < 64, sextetCode n ≠ 33 := by decide

theorem mulAddDiv (k a r : Nat) (hk : 0 < k) (h : r < k) : (a * k + r) / k = a := by
  rw [Nat.mul_comm, Nat.mul_add_div hk, Nat.div_eq_of_lt h, Nat.add_zero]

theorem mulAddMod (k a r : Nat) (h : r < k) : (a * k + r) % k = r := by
  rw [Nat.mul_comm, Nat.mul_add_mod]
  exact Nat.mod_eq_of_lt h

theorem b64_roundtrip : ∀ l : List Nat, (∀ b ∈ l, b < 256) →
    b64DecodeCodes (b64EncodeBytes l) = some l
  | [], _ => rfl
  | [b0], h => by
    have hb0 : b0 < 256 := h b0 (by simp)
    have h0 : b0 / 4 < 64 := by omega
    have h1 : b0 % 4 * 16 < 64 := by omega
    simp only [b64EncodeBytes, b64DecodeCodes,
      codeSextet_sextetCode _ h0, codeSextet_sextetCode _ h1]
    simp only [eq_self_iff_true, and_self, if_true, Option.some.injEq,
      List.cons.injEq, and_true]
    rw [Nat.mul_div_cancel (b0 % 4) (by norm_num : (0:Nat) < 16)]
    omega
  | [b0, b1], h => by
    have hb0 : b0 < 256 := h b0 (by simp)
    have hb1 : b1 < 256 := h b1 (by simp)
    have h0 : b0 / 4 < 64 := by omega
    have h1 : b0 % 4 * 16 + b1 / 16 < 64 := by omega
    have h2 : b1 % 16 * 4 < 64 := by omega
    simp only [b64EncodeBytes, b64DecodeCodes,
      codeSextet_sextetCode _ h0, codeSextet_sextetCode _ h1,
      codeSextet_sextetCode _ h2]
    simp only [if_neg (sextetCode_ne_61 _ h2), eq_self_iff_true, and_self,
      if_true, Option.some.injEq, List.cons.injEq, and_true]
    rw [mulAddDiv 16 (b0 % 4) (b1 / 16) (by norm_num) (by omega),
      mulAddMod 16 (b0 % 4) (b1 / 16) (by omega),
      Nat.mul_div_cancel (b1 % 16) (by norm_num : (0:Nat) < 4)]
    omega
  | b0 :: b1 :: b2 :: b3 :: rest, h => by
    have hb0 : b0 < 256 := h b0 (by simp)
    have hb1 : b1 < 256 := h b1 (by simp)
    have hb2 : b2 < 256 := h b2 (by simp)
    have h0 : b0 / 4 < 64 := by omega
    have h1 : b0 % 4 * 16 + b1 / 16 < 64 := by omega
    have h2 : b1 % 16 * 4 + b2 / 64 < 64 := by omega
    have h3 : b2 % 64 < 64 := by omega
    have ih := b64_roundtrip (b3 :: rest) (fun b hb => h b (by simp [hb]))
    simp only [b64EncodeBytes, b64DecodeCodes,
      codeSextet_sextetCode _ h0, codeSextet_sextetCode _ h1,
      codeSextet_sextetCode _ h2, codeSextet_sextetCode _ h3]
    rw [show b64DecodeCodes (b64EncodeBytes (b3 :: rest)) = some (b3 :: rest) from ih]
    simp only [if_neg (sextetCode_ne_61 _ h2), if_neg (sextetCode_ne_61 _ h3),
      Option.some.injEq, List.cons.injEq, and_true, eq_self_iff_true]
    rw [mulAddDiv 16 (b0 % 4) (b1 / 16) (by norm_num) (by omega),
      mulAddMod 16 (b0 % 4) (b1 / 16) (by omega),
      mulAddDiv 4 (b1 % 16) (b2 / 64) (by norm_num) (by omega),
      mulAddMod 4 (b1 % 16) (b2 / 64) (by omega)]
    omega
  | [b0, b1, b2], h => by
    have hb0 : b0 < 256 := h b0 (by simp)
    have hb1 : b1 < 256 := h b1 (by simp)
    have hb2 : b2 < 256 := h b2 (by simp)
    have h0 : b0 / 4 < 64 := by omega
    have h1 : b0 % 4 * 16 + b1 / 16 < 64 := by omega
    have h2 : b1 % 16 * 4 + b2 / 64 < 64 := by omega
    have h3 : b2 % 64 < 64 := by omega
    simp only [b64EncodeBytes, b64DecodeCodes,
      codeSextet_sextetCode _ h0, codeSextet_sextetCode _ h1,
      codeSextet_sextetCode _ h2, codeSextet_sextetCode _ h3]
    simp only [if_neg (sextetCode_ne_61 _ h2), if_neg (sextetCode_ne_61 _ h3),
      Option.some.injEq, List.cons.injEq, and_true, eq_self_iff_true]
    rw [mulAddDiv 16 (b0 % 4) (b1 / 16) (by norm_num) (by omega),
      mulAddMod 16 (b0 % 4) (b1 / 16) (by omega),
      mulAddDiv 4 (b1 % 16) (b2 / 64) (by norm_num) (by omega),
      mulAddMod 4 (b1 % 16) (b2 / 64) (by omega)]
    omega

/-- The RFC branch of the encoder starts with an alphabet code. -/
theorem b64EncodeBytes_cons (b0 : Nat) (rest : List Nat) :
    ∃ t, b64EncodeBytes (b0 :: rest) = sextetCode (b0 / 4) :: t := by
  match rest with
  | [] => exact ⟨_, rfl⟩
  | [b1] => exact ⟨_, rfl⟩
  | [b1, b2] => exact ⟨_, rfl⟩
  | b1 :: b2 :: b3 :: r => exact ⟨_, rfl⟩

/-- On byte arrays and on the model-only injection alike, the model decoder
inverts the model encoder. -/
theorem decodeBase64Opt_encodeBase64 (bs : List Nat) :
    decodeBase64Opt (encodeBase64 bs) = some bs := by
  by_cases hb : bs.all (· < 256)
  · have hall : ∀ b ∈ bs, b < 256 := by
      intro b hbmem
      exact of_decide_eq_true (List.all_eq_true.mp hb b hbmem)
    rw [encodeBase64, if_pos hb]
    cases bs with
    | nil => rfl
    | cons x xs =>
      have hx : x < 256 := hall x (by simp)
      obtain ⟨t, ht⟩ := b64EncodeBytes_cons x xs
      rw [ht, decodeBase64Opt,
        if_neg (sextetCode_ne_33 _ (by omega : x / 4 < 64)), ← ht]
      exact b64_roundtrip _ hall
  · rw [encodeBase64, if_neg hb]
    rfl

/-- Lists holding an out-of-byte-range entry take the model-only branch of
the encoder. -/
theorem encodeBase64_of_big (bs : List Nat) (h : ∃ x ∈ bs, ¬ x < 256) :
    encodeBase64 bs = 33 :: bs := by
  rw [encodeBase64, if_neg]
  obtain ⟨y, hy, hlt⟩ := h
  intro hall
  exact hlt (of_decide_eq_true (List.all_eq_true.mp hall y hy))

/-! ## Secretbox -/

theorem keystream_lt (k n : List Nat) (i : Nat) : keystream k n i < 256 :=
  Nat.mod_lt _ (by norm_num)

theorem unmaskFrom_maskFrom (k n : List Nat) :
    ∀ (i : Nat) (m : List Nat), (∀ b ∈ m, b < 256) →
    unmaskFrom k n i (maskFrom k n i m) = m
  | _, [], _ => rfl
  | i, b :: rest, h => by
    have hb : b < 256 := h b (by simp)
    have hk : keystream k n i < 256 := keystream_lt k n i
    simp only [maskFrom, unmaskFrom,
      unmaskFrom_maskFrom k n (i + 1) rest (fun x hx => h x (by simp [hx]))]
    simp only [List.cons.injEq, and_true]
    omega

theorem length_maskFrom (k n : List Nat) :
    ∀ (i : Nat) (m : List Nat), (maskFrom k n i m).length = m.length
  | _, [] => rfl
  | i, b :: rest => by
    simp only [maskFrom, List.length_cons, length_maskFrom k n (i + 1) rest]

theorem length_tagBlock (k n m : List Nat) : (tagBlock k n m).length = 16 := by
  simp [tagBlock]

theorem length_secretbox (m n k : List Nat) :
    (secretbox m n k).length = 16 + m.length := by
  simp [secretbox, length_tagBlock, length_maskFrom]

theorem secretbox_take16 (m n k : List Nat) :
    (secretbox m n k).take 16 = tagBlock k n m := by
  rw [secretbox, List.take_left' (length_tagBlock k n m)]

theorem secretbox_drop16 (m n k : List Nat) :
    (secretbox m n k).drop 16 = maskFrom k n 0 m := by
  rw [secretbox, List.drop_left' (length_tagBlock k n m)]

/-- Opening a box with the key that sealed it recovers the plaintext. -/
theorem secretboxOpen_secretbox (m n k : List Nat) (hm : ∀ b ∈ m, b < 256) :
    secretboxOpen (secretbox m n k) n k = some m := by
  rw [secretboxOpen, if_neg (by rw [length_secretbox]; omega)]
  simp [secretbox_drop16, secretbox_take16, unmaskFrom_maskFrom k n 0 m hm]

/-- A box sealed under one key never opens under a key with a different
code: the idealized authenticator is perfectly binding in the key. -/
theorem secretboxOpen_wrongKey (m n k₁ k₂ : List Nat)
    (h : natsCode k₂ ≠ natsCode k₁) :
    secretboxOpen (secretbox m n k₁) n k₂ = none := by
  rw [secretboxOpen, if_neg (by rw [length_secretbox]; omega)]
  simp only [secretbox_drop16, secretbox_take16]
  rw [if_neg]
  intro heq
  have hhead : 256 + tagCode k₁ n m =
      256 + tagCode k₂ n (unmaskFrom k₂ n 0 (maskFrom k₁ n 0 m)) := by
    have := congrArg (fun l => l.headD 0) heq
    simpa [tagBlock] using this
  have htag : tagCode k₁ n m =
      tagCode k₂ n (unmaskFrom k₂ n 0 (maskFrom k₁ n 0 m)) := by omega
  rw [tagCode, tagCode] at htag
  exact h ((Nat.pair_eq_pair.mp htag).1.symm)

/-! ## `encrypt` / `decrypt` -/

theorem encrypt_eq (d : List Nat) (k : JStr) (kb nonce : List Nat)
    (hk : decodeBase64Opt k = some kb) (hklen : kb.length = 32) :
    encrypt d k nonce =
      .ok (encodeBase64 (1 :: nonce ++ secretbox d nonce kb)) := by
  rw [encrypt, hk]
  simp [KEY_LENGTHS_SECRET_KEY, hklen, CURRENT_PAYLOAD_VERSION]

/-- The assembled payload always carries the idealized tag, hence always
takes the model-only branch of the encoder. -/
theorem encodeBase64_payload (v : Nat) (nonce m n k : List Nat) :
    encodeBase64 (v :: nonce ++ secretbox m n k) =
      33 :: v :: nonce ++ secretbox m n k := by
  apply encodeBase64_of_big
  refine ⟨256 + tagCode k n m, ?_, by omega⟩
  simp [secretbox, tagBlock]

theorem decodeBase64Opt_payload (v : Nat) (nonce m n k : List Nat) :
    decodeBase64Opt (encodeBase64 (v :: nonce ++ secretbox m n k)) =
      some (v :: nonce ++ secretbox m n k) :=
  decodeBase64Opt_encodeBase64 _

/-- `decrypt` of a freshly assembled version-1 payload reduces to opening
the box. -/
theorem decrypt_payload (nonce m kb : List Nat) (k : JStr)
    (hk : decodeBase64Opt k = some kb) (hklen : kb.length = 32)
    (hn : nonce.length = 24) :
    decrypt (encodeBase64 (1 :: nonce ++ secretbox m nonce kb)) k =
      match secretboxOpen (secretbox m nonce kb) nonce kb with
      | none => .error .decryptionFailed
      | some decrypted => .ok decrypted := by
  rw [decrypt, decodeBase64Opt_payload, hk]
  have hlen : (1 :: nonce ++ secretbox m nonce kb).length = 41 + m.length := by
    simp [length_secretbox, hn]
    omega
  have hnotshort : ¬ (1 :: nonce ++ secretbox m nonce kb).length <
      PAYLOAD_STRUCTURE_VERSION_BYTES + PAYLOAD_STRUCTURE_NONCE_BYTES +
        PAYLOAD_STRUCTURE_AUTH_TAG_BYTES := by
    rw [hlen]
    simp [PAYLOAD_STRUCTURE_VERSION_BYTES, PAYLOAD_STRUCTURE_NONCE_BYTES,
      PAYLOAD_STRUCTURE_AUTH_TAG_BYTES]
  simp only [KEY_LENGTHS_SECRET_KEY, hklen, ne_eq, not_true_eq_false,
    if_neg hnotshort, reduceIte, CURRENT_PAYLOAD_VERSION]
  rw [show (1 :: nonce ++ secretbox m nonce kb).headD 0 = 1 from rfl]
  rw [if_neg (by omega), if_pos rfl, decryptV1]
  have hdrop1 : (1 :: nonce ++ secretbox m nonce kb).drop 1 =
      nonce ++ secretbox m nonce kb := rfl
  have htake : ((1 :: nonce ++ secretbox m nonce kb).drop 1).take 24 = nonce := by
    rw [hdrop1, List.take_left' hn]
  have hdrop25 : (1 :: nonce ++ secretbox m nonce kb).drop 25 =
      secretbox m nonce kb := by
    have : (1 :: nonce ++ secretbox m nonce kb).drop 25 =
        (nonce ++ secretbox m nonce kb).drop 24 := rfl
    rw [this, List.drop_left' hn]
  rw [htake, hdrop25]


/-! ## Key exchange -/

theorem fromBase256_inj : ∀ (a b : List Nat), (∀ x ∈ a, x < 256) →
    (∀ x ∈ b, x < 256) → a.length = b.length →
    fromBase256 a = fromBase256 b → a = b
  | [], [], _, _, _, _ => rfl
  | [], y :: ys, _, _, hlen, _ => by simp at hlen
  | x :: xs, [], _, _, hlen, _ => by simp at hlen
  | x :: xs, y :: ys, ha, hb, hlen, hval => by
    have hx : x < 256 := ha x (by simp)
    have hy : y < 256 := hb y (by simp)
    simp only [fromBase256] at hval
    have h1 : x = y := by omega
    have h2 : fromBase256 xs = fromBase256 ys := by omega
    have h3 := fromBase256_inj xs ys (fun z hz => ha z (by simp [hz]))
      (fun z hz => hb z (by simp [hz])) (by simpa using hlen) h2
    rw [h1, h3]

theorem natsCode_inj (a b : List Nat) (ha : ∀ x ∈ a, x < 256)
    (hb : ∀ x ∈ b, x < 256) (h : natsCode a = natsCode b) : a = b := by
  rw [natsCode, natsCode] at h
  obtain ⟨hv, hl⟩ := Nat.pair_eq_pair.mp h
  exact fromBase256_inj a b ha hb hl hv

/-- The Diffie-Hellman property of the model: both parties compute the same
shared secret. -/
theorem sharedKey_comm (a b : List Nat) :
    sharedKey (pubOf b) a = sharedKey (pubOf a) b := by
  rw [sharedKey, sharedKey, min_comm, max_comm]

theorem natsCode_singleton (z : Nat) : natsCode [z] = Nat.pair z 1 := by
  simp [natsCode, fromBase256]

theorem natsCode_sharedKey_eq_iff (p1 s1 p2 s2 : List Nat) :
    natsCode (sharedKey p1 s1) = natsCode (sharedKey p2 s2) ↔
      min (natsCode p1) (natsCode (pubOf s1)) =
        min (natsCode p2) (natsCode (pubOf s2)) ∧
      max (natsCode p1) (natsCode (pubOf s1)) =
        max (natsCode p2) (natsCode (pubOf s2)) := by
  simp [sharedKey, natsCode_singleton, Nat.pair_eq_pair]

/-- Equal unordered pairs of naturals pair off their elements. -/
theorem unordered_pair_eq {x y u v : Nat} (hmin : min x y = min u v)
    (hmax : max x y = max u v) : (x = u ∧ y = v) ∨ (x = v ∧ y = u) := by
  omega

/-- Opening a grant with the right sender public key and recipient private
key recovers the symmetric key. -/
theorem boxOpen_box (m nn a rb : List Nat) (hm : ∀ x ∈ m, x < 256) :
    boxOpen (box m nn (pubOf rb) a) nn (pubOf a) rb = some m := by
  rw [box, boxOpen, sharedKey_comm rb a]
  exact secretboxOpen_secretbox m nn (sharedKey (pubOf rb) a) hm

/-- `encryptKeyForRecipient` on well-formed keys assembles the version-1
grant payload. -/
theorem encryptKeyForRecipient_eq (s pub a nonce : List Nat)
    (hsl : s.length = 32) (hpubl : pub.length = 32) (hal : a.length = 32) :
    encryptKeyForRecipient (encodeBase64 s) (encodeBase64 pub)
      (encodeBase64 a) nonce =
      .ok (encodeBase64 (1 :: nonce ++ box s nonce pub a)) := by
  rw [encryptKeyForRecipient, decodeBase64Opt_encodeBase64,
    decodeBase64Opt_encodeBase64, decodeBase64Opt_encodeBase64]
  simp [KEY_LENGTHS_SECRET_KEY, KEY_LENGTHS_PUBLIC_KEY, KEY_LENGTHS_PRIVATE_KEY,
    hsl, hpubl, hal, CURRENT_PAYLOAD_VERSION]

/-- `decryptKeyFromSender` on a well-formed version-1 grant payload reduces
to opening the box under the receiver-side shared secret. -/
theorem decryptKeyFromSender_payload (nonce m kbox sp rp : List Nat)
    (hn : nonce.length = 24) (hm : 32 ≤ m.length)
    (hsp : sp.length = 32) (hrp : rp.length = 32) :
    decryptKeyFromSender (encodeBase64 (1 :: nonce ++ secretbox m nonce kbox))
      (encodeBase64 sp) (encodeBase64 rp) =
      match secretboxOpen (secretbox m nonce kbox) nonce (sharedKey sp rp) with
      | none => .error .decryptionFailed
      | some decrypted =>
          if decrypted.length ≠ 32 then .error .corruptKey
          else .ok (encodeBase64 decrypted) := by
  rw [decryptKeyFromSender, decodeBase64Opt_encodeBase64,
    decodeBase64Opt_encodeBase64, decodeBase64Opt_encodeBase64]
  have hlen : (1 :: nonce ++ secretbox m nonce kbox).length = 41 + m.length := by
    simp [length_secretbox, hn]
    omega
  have hnotshort : ¬ (1 :: nonce ++ secretbox m nonce kbox).length <
      PAYLOAD_STRUCTURE_VERSION_BYTES + PAYLOAD_STRUCTURE_NONCE_BYTES +
        KEY_LENGTHS_SECRET_KEY + PAYLOAD_STRUCTURE_AUTH_TAG_BYTES := by
    rw [hlen]
    simp only [PAYLOAD_STRUCTURE_VERSION_BYTES, PAYLOAD_STRUCTURE_NONCE_BYTES,
      KEY_LENGTHS_SECRET_KEY, PAYLOAD_STRUCTURE_AUTH_TAG_BYTES]
    omega
  simp only [KEY_LENGTHS_PUBLIC_KEY, KEY_LENGTHS_PRIVATE_KEY, hsp, hrp, ne_eq,
    not_true_eq_false, if_neg hnotshort, reduceIte]
  rw [show (1 :: nonce ++ secretbox m nonce kbox).headD 0 = 1 from rfl]
  rw [if_neg (by rw [CURRENT_PAYLOAD_VERSION]; omega)]
  have htake : ((1 :: nonce ++ secretbox m nonce kbox).drop 1).take 24 = nonce := by
    rw [show (1 :: nonce ++ secretbox m nonce kbox).drop 1 =
      nonce ++ secretbox m nonce kbox from rfl, List.take_left' hn]
  have hdrop25 : (1 :: nonce ++ secretbox m nonce kbox).drop 25 =
      secretbox m nonce kbox := by
    rw [show (1 :: nonce ++ secretbox m nonce kbox).drop 25 =
      (nonce ++ secretbox m nonce kbox).drop 24 from rfl, List.drop_left' hn]
  rw [htake, hdrop25, boxOpen, KEY_LENGTHS_SECRET_KEY]

/-- A grant decrypts to the gallery key for its intended recipient. -/
theorem decrypt_grant (gkb a rb nn : List Nat)
    (hg : ∀ x ∈ gkb, x < 256) (hgl : gkb.length = 32)
    (hal : a.length = 32) (hrl : rb.length = 32) (hn : nn.length = 24) :
    decryptKeyFromSender (encodeBase64 (1 :: nn ++ box gkb nn (pubOf rb) a))
      (encodeBase64 (pubOf a)) (encodeBase64 rb) = .ok (encodeBase64 gkb) := by
  rw [box, decryptKeyFromSender_payload nn gkb (sharedKey (pubOf rb) a)
    (pubOf a) rb hn (by omega) hal hrl]
  rw [sharedKey_comm rb a, secretboxOpen_secretbox gkb nn _ hg]
  simp [hgl]

/-- Opening a grant under a mismatched shared secret fails. -/
theorem decryptKeyFromSender_wrongShared (m kbox nn sp rp : List Nat)
    (hm : 32 ≤ m.length) (hn : nn.length = 24)
    (hsp : sp.length = 32) (hrp : rp.length = 32)
    (hne : natsCode (sharedKey sp rp) ≠ natsCode kbox) :
    decryptKeyFromSender (encodeBase64 (1 :: nn ++ secretbox m nn kbox))
      (encodeBase64 sp) (encodeBase64 rp) = .error .decryptionFailed := by
  rw [decryptKeyFromSender_payload nn m kbox sp rp hn hm hsp hrp,
    secretboxOpen_wrongKey m nn kbox (sharedKey sp rp) hne]

/-- A third party's private key computes a different shared secret. -/
theorem sharedKey_ne_wrongRecipient (a b c : List Nat)
    (ha : ∀ x ∈ a, x < 256) (hb : ∀ x ∈ b, x < 256) (hc : ∀ x ∈ c, x < 256)
    (hne : c ≠ b) :
    natsCode (sharedKey (pubOf a) c) ≠ natsCode (sharedKey (pubOf b) a) := by
  intro h
  obtain ⟨hmin, hmax⟩ := (natsCode_sharedKey_eq_iff _ _ _ _).mp h
  rcases unordered_pair_eq hmin hmax with ⟨h1, h2⟩ | ⟨h1, h2⟩
  · have hab : a = b := natsCode_inj _ _ ha hb h1
    have hca : c = a := natsCode_inj _ _ hc ha h2
    exact hne (hca.trans hab)
  · exact hne (natsCode_inj _ _ hc hb h2)

/-- A sender public key other than the true one computes a different shared
secret. -/
theorem sharedKey_ne_wrongSender (a b sp : List Nat)
    (ha : ∀ x ∈ a, x < 256) (hb : ∀ x ∈ b, x < 256) (hsp : ∀ x ∈ sp, x < 256)
    (hne : sp ≠ pubOf a) :
    natsCode (sharedKey sp b) ≠ natsCode (sharedKey (pubOf b) a) := by
  intro h
  obtain ⟨hmin, hmax⟩ := (natsCode_sharedKey_eq_iff _ _ _ _).mp h
  rcases unordered_pair_eq hmin hmax with ⟨h1, h2⟩ | ⟨h1, h2⟩
  · have h3 : sp = pubOf b := natsCode_inj _ _ hsp hb h1
    have h4 : b = a := natsCode_inj _ _ hb ha h2
    rw [h3, h4] at hne
    exact hne rfl
  · exact hne (natsCode_inj _ _ hsp ha h1)

/-! ## Gallery key distribution -/

theorem mapExcept_map {α β : Type} (f : α → Except CryptoError β) (g : α → β) :
    ∀ l : List α, (∀ x ∈ l, f x = .ok (g x)) → mapExcept f l = .ok (l.map g)
  | [], _ => rfl
  | a :: l, h => by
    simp only [mapExcept, h a (by simp),
      mapExcept_map f g l (fun x hx => h x (by simp [hx])), List.map_cons]

theorem mapExcept_error_of_mem {α β : Type} (f : α → Except CryptoError β) :
    ∀ (l : List α) (x : α), x ∈ l → (∃ e, f x = .error e) →
      ∃ e2, mapExcept f l = .error e2
  | a :: l, x, hx, ⟨e, he⟩ => by
    cases hfa : f a with
    | error e2 => exact ⟨e2, by rw [mapExcept, hfa]⟩
    | ok b =>
      have hxl : x ∈ l := by
        rcases List.mem_cons.mp hx with rfl | hmem
        · rw [hfa] at he
          exact absurd he (by simp)
        · exact hmem
      obtain ⟨e3, h3⟩ := mapExcept_error_of_mem f l x hxl ⟨e, he⟩
      exact ⟨e3, by rw [mapExcept, hfa, h3]⟩

/-- On a member list of well-formed keypairs the batch succeeds and produces
exactly the per-recipient grants, in order. -/
theorem encryptGalleryKeyForMembers_ok (gkb a : List Nat)
    (hgl : gkb.length = 32) (hal : a.length = 32) :
    ∀ (members : List (JStr × List Nat)) (nonces : List (List Nat)),
    (∀ mem ∈ members, mem.2.length = 32) →
    encryptGalleryKeyForMembers (encodeBase64 gkb)
      (members.map (fun mem => ⟨mem.1, encodeBase64 (pubOf mem.2)⟩))
      (encodeBase64 a) nonces =
      .ok (List.zipWith
        (fun mem nn =>
          ⟨mem.1, encodeBase64 (1 :: nn ++ box gkb nn (pubOf mem.2) a)⟩)
        members nonces)
  | [], nonces, _ => rfl
  | mem :: ms, [], _ => rfl
  | mem :: ms, nn :: ns, h => by
    have hml : mem.2.length = 32 := h mem (by simp)
    have ih := encryptGalleryKeyForMembers_ok gkb a hgl hal ms ns
      (fun x hx => h x (by simp [hx]))
    rw [encryptGalleryKeyForMembers] at ih ⊢
    simp only [List.zip_eq_zipWith] at ih ⊢
    simp only [List.map_cons, List.zipWith_cons_cons, mapExcept,
      encryptKeyForRecipient_eq gkb (pubOf mem.2) a nn hgl hml hal, ih]

/-! ## Seed phrase: string lemmas -/

theorem getLast?_append_right (l1 l2 : List Nat) (h : l2 ≠ []) :
    (l1 ++ l2).getLast? = l2.getLast? := by
  rw [List.getLast?_append]
  cases hl : l2.getLast? with
  | none => exact absurd (List.getLast?_eq_none_iff.mp hl) h
  | some c => rfl

theorem jsToLowerCode_idem (c : Nat) :
    jsToLowerCode (jsToLowerCode c) = jsToLowerCode c := by
  simp only [jsToLowerCode]
  split_ifs <;> omega

theorem isWsCode_jsToLowerCode (c : Nat) :
    isWsCode (jsToLowerCode c) = isWsCode c := by
  rw [jsToLowerCode]
  split_ifs with h
  · rw [isWsCode, isWsCode]
    exact decide_eq_decide.mpr (by omega)
  · rfl

theorem wordsOf_cons_ws (c : Nat) (cs : JStr) (h : isWsCode c = true) :
    wordsOf (c :: cs) = wordsOf cs := by
  cases cs with
  | nil => simp [wordsOf, h]
  | cons d ds => simp [wordsOf, h]

theorem wordsOf_cons_nonws (c : Nat) (cs : JStr) (hc : isWsCode c = false) :
    wordsOf (c :: cs) =
      (c :: cs.takeWhile (fun d => !isWsCode d)) ::
        wordsOf (cs.dropWhile (fun d => !isWsCode d)) := by
  induction cs generalizing c with
  | nil => simp [wordsOf, hc]
  | cons d ds ih =>
    by_cases hd : isWsCode d
    · simp [wordsOf, hc, hd, List.takeWhile_cons, List.dropWhile_cons]
    · have hd2 : isWsCode d = false := by simpa using hd
      simp only [wordsOf, hc, hd2, Bool.false_eq_true, if_false, ih d hd2,
        List.takeWhile_cons, List.dropWhile_cons, Bool.not_false, if_true]

theorem wordsOf_props : ∀ (s : JStr), ∀ w ∈ wordsOf s,
    w ≠ [] ∧ ∀ c ∈ w, isWsCode c = false ∧ c ∈ s
  | [] => by simp [wordsOf]
  | [c] => by
    by_cases hc : isWsCode c
    · simp [wordsOf, hc]
    · intro w hw
      have hc2 : isWsCode c = false := by simpa using hc
      simp only [wordsOf, hc2, Bool.false_eq_true, if_false,
        List.mem_singleton] at hw
      subst hw
      refine ⟨by simp, ?_⟩
      intro x hx
      simp only [List.mem_singleton] at hx
      subst hx
      exact ⟨by simpa using hc, by simp⟩
  | c :: d :: cs => by
    intro w hw
    have ih := wordsOf_props (d :: cs)
    by_cases hc : isWsCode c
    · rw [wordsOf_cons_ws c (d :: cs) hc] at hw
      obtain ⟨h1, h2⟩ := ih w hw
      exact ⟨h1, fun x hx => ⟨(h2 x hx).1, List.mem_cons_of_mem c (h2 x hx).2⟩⟩
    · have hc2 : isWsCode c = false := by simpa using hc
      simp only [wordsOf, hc2, Bool.false_eq_true, if_false] at hw
      by_cases hd : isWsCode d
      · simp only [hd, if_true] at hw
        rcases List.mem_cons.mp hw with rfl | hmem
        · refine ⟨by simp, ?_⟩
          intro x hx
          simp only [List.mem_singleton] at hx
          subst hx
          exact ⟨hc2, by simp⟩
        · obtain ⟨h1, h2⟩ := ih w hmem
          exact ⟨h1, fun x hx => ⟨(h2 x hx).1, List.mem_cons_of_mem c (h2 x hx).2⟩⟩
      · have hd2 : isWsCode d = false := by simpa using hd
        simp only [hd2, Bool.false_eq_true, if_false] at hw
        cases hww : wordsOf (d :: cs) with
        | nil =>
          rw [hww] at hw
          simp only [List.mem_singleton] at hw
          subst hw
          refine ⟨by simp, ?_⟩
          intro x hx
          simp only [List.mem_singleton] at hx
          subst hx
          exact ⟨hc2, by simp⟩
        | cons w0 rest =>
          rw [hww] at hw
          rcases List.mem_cons.mp hw with rfl | hmem
          · obtain ⟨h1, h2⟩ := ih w0 (by rw [hww]; simp)
            refine ⟨by simp, ?_⟩
            intro x hx
            rcases List.mem_cons.mp hx with rfl | hxw
            · exact ⟨hc2, by simp⟩
            · exact ⟨(h2 x hxw).1, List.mem_cons_of_mem c (h2 x hxw).2⟩
          · obtain ⟨h1, h2⟩ := ih w (by rw [hww]; simp [hmem])
            exact ⟨h1, fun x hx => ⟨(h2 x hx).1, List.mem_cons_of_mem c (h2 x hx).2⟩⟩

theorem takeWhile_nonws_all (w : JStr) (hw : ∀ c ∈ w, isWsCode c = false) :
    w.takeWhile (fun d => !isWsCode d) = w ∧
    w.dropWhile (fun d => !isWsCode d) = [] := by
  induction w with
  | nil => simp
  | cons c w2 ih =>
    have hc : isWsCode c = false := hw c (by simp)
    have ih2 := ih (fun x hx => hw x (by simp [hx]))
    simp [List.takeWhile_cons, List.dropWhile_cons, hc, ih2.1, ih2.2]

theorem takeWhile_nonws_append (w t : JStr) (hw : ∀ c ∈ w, isWsCode c = false) :
    (w ++ 32 :: t).takeWhile (fun d => !isWsCode d) = w ∧
    (w ++ 32 :: t).dropWhile (fun d => !isWsCode d) = 32 :: t := by
  induction w with
  | nil =>
    constructor <;>
      simp [List.takeWhile_cons, List.dropWhile_cons,
        show isWsCode 32 = true from rfl]
  | cons c w2 ih =>
    have hc : isWsCode c = false := hw c (by simp)
    have ih2 := ih (fun x hx => hw x (by simp [hx]))
    simp [List.takeWhile_cons, List.dropWhile_cons, hc, ih2.1, ih2.2]

theorem wordsOf_joinSpace : ∀ (W : List JStr), W ≠ [] →
    (∀ w ∈ W, w ≠ [] ∧ ∀ c ∈ w, isWsCode c = false) →
    wordsOf (joinSpace W) = W
  | [], h, _ => absurd rfl h
  | [w], _, h => by
    obtain ⟨hne, hch⟩ := h w (by simp)
    obtain ⟨c, w2, rfl⟩ := List.exists_cons_of_ne_nil hne
    rw [show joinSpace [c :: w2] = c :: w2 from rfl,
      wordsOf_cons_nonws c w2 (hch c (by simp))]
    have hall := takeWhile_nonws_all w2 (fun x hx => hch x (by simp [hx]))
    rw [hall.1, hall.2]
    rfl
  | w :: w2 :: rest, _, h => by
    obtain ⟨hne, hch⟩ := h w (by simp)
    obtain ⟨c, w3, rfl⟩ := List.exists_cons_of_ne_nil hne
    rw [show joinSpace ((c :: w3) :: w2 :: rest) =
      c :: (w3 ++ 32 :: joinSpace (w2 :: rest)) from rfl]
    rw [wordsOf_cons_nonws c _ (hch c (by simp))]
    have happ := takeWhile_nonws_append w3 (joinSpace (w2 :: rest))
      (fun x hx => hch x (by simp [hx]))
    rw [happ.1, happ.2, wordsOf_cons_ws 32 _ rfl,
      wordsOf_joinSpace (w2 :: rest) (by simp)
        (fun x hx => h x (by simp [hx]))]

theorem joinSpace_head (c : Nat) (w2 : JStr) (W : List JStr) :
    (joinSpace ((c :: w2) :: W)).head? = some c := by
  cases W with
  | nil => rfl
  | cons w3 rest => rfl

theorem joinSpace_ne_nil (c : Nat) (w2 : JStr) (W : List JStr) :
    joinSpace ((c :: w2) :: W) ≠ [] := by
  cases W with
  | nil => simp [joinSpace]
  | cons w3 rest => simp [joinSpace]

theorem joinSpace_getLast : ∀ (W : List JStr), W ≠ [] →
    (∀ w ∈ W, w ≠ []) →
    ∃ c, (joinSpace W).getLast? = some c ∧ ∃ w ∈ W, c ∈ w
  | [], h, _ => absurd rfl h
  | [w], _, h => by
    have hne := h w (by simp)
    exact ⟨w.getLast hne,
      by rw [show joinSpace [w] = w from rfl, List.getLast?_eq_getLast w hne],
      ⟨w, by simp, List.getLast_mem hne⟩⟩
  | w :: w2 :: rest, _, h => by
    obtain ⟨c, hc, w3, hw3, hcw⟩ := joinSpace_getLast (w2 :: rest) (by simp)
      (fun x hx => h x (by simp [hx]))
    have hmem : w3 ∈ w :: w2 :: rest := by
      rcases List.mem_cons.mp hw3 with rfl | hx
      · simp
      · simp [hx]
    refine ⟨c, ?_, ⟨w3, hmem, hcw⟩⟩
    obtain ⟨c2, w4, hw2⟩ := List.exists_cons_of_ne_nil (h w2 (by simp))
    have hnn : (32 :: joinSpace (w2 :: rest)) ≠ [] := by simp
    rw [show joinSpace (w :: w2 :: rest) =
      w ++ 32 :: joinSpace (w2 :: rest) from rfl,
      getLast?_append_right _ _ hnn,
      show (32 :: joinSpace (w2 :: rest)) = [32] ++ joinSpace (w2 :: rest)
        from rfl,
      getLast?_append_right _ _ (by rw [hw2]; exact joinSpace_ne_nil c2 w4 rest),
      hc]

theorem dropWhile_head_not (p : Nat → Bool) :
    ∀ (l : List Nat) (c : Nat) (cs : List Nat),
      l.dropWhile p = c :: cs → p c = false
  | [], c, cs, h => by simp at h
  | d :: ds, c, cs, h => by
    rw [List.dropWhile_cons] at h
    by_cases hd : p d
    · rw [if_pos hd] at h
      exact dropWhile_head_not p ds c cs h
    · rw [if_neg hd] at h
      injection h with h1 h2
      subst h1
      simpa using hd

theorem jsTrim_head_last (p : JStr) :
    (∀ c, (jsTrim p).head? = some c → isWsCode c = false) ∧
    (∀ c, (jsTrim p).getLast? = some c → isWsCode c = false) := by
  constructor
  · intro c hc
    rw [jsTrim, List.head?_reverse] at hc
    have hvne : (p.dropWhile isWsCode).reverse.dropWhile isWsCode ≠ [] := by
      intro h
      rw [h] at hc
      simp at hc
    obtain ⟨t, ht⟩ := List.dropWhile_suffix
      (l := (p.dropWhile isWsCode).reverse) isWsCode
    have h2 : (p.dropWhile isWsCode).reverse.getLast? = some c := by
      rw [← ht, getLast?_append_right t _ hvne, hc]
    rw [List.getLast?_reverse] at h2
    cases hu : p.dropWhile isWsCode with
    | nil => rw [hu] at h2; simp at h2
    | cons x xs =>
      rw [hu] at h2
      simp only [List.head?_cons, Option.some.injEq] at h2
      exact h2 ▸ dropWhile_head_not isWsCode p x xs hu
  · intro c hc
    rw [jsTrim, List.getLast?_reverse] at hc
    cases hv : (p.dropWhile isWsCode).reverse.dropWhile isWsCode with
    | nil => rw [hv] at hc; simp at hc
    | cons x xs =>
      rw [hv] at hc
      simp only [List.head?_cons, Option.some.injEq] at hc
      exact hc ▸ dropWhile_head_not isWsCode (p.dropWhile isWsCode).reverse
        x xs hv

theorem jsTrim_eq_self (s : JStr)
    (hh : ∀ c, s.head? = some c → isWsCode c = false)
    (hl : ∀ c, s.getLast? = some c → isWsCode c = false) :
    jsTrim s = s := by
  rw [jsTrim]
  have h1 : s.dropWhile isWsCode = s := by
    cases s with
    | nil => rfl
    | cons c cs =>
      rw [List.dropWhile_cons, if_neg (by simp [hh c rfl])]
  rw [h1]
  have h2 : s.reverse.dropWhile isWsCode = s.reverse := by
    cases hrev : s.reverse with
    | nil => rfl
    | cons c cs =>
      rw [List.dropWhile_cons]
      have hlast : s.getLast? = some c := by
        rw [← List.head?_reverse, hrev]
        rfl
      rw [if_neg (by simp [hl c hlast])]
  rw [h2, List.reverse_reverse]

theorem mem_joinSpace : ∀ (W : List JStr) (c : Nat), c ∈ joinSpace W →
    c = 32 ∨ ∃ w ∈ W, c ∈ w
  | [], c, h => by simp [joinSpace] at h
  | [w], c, h => by
    right
    exact ⟨w, by simp, by simpa [joinSpace] using h⟩
  | w :: w2 :: rest, c, h => by
    rw [show joinSpace (w :: w2 :: rest) =
      w ++ 32 :: joinSpace (w2 :: rest) from rfl] at h
    rcases List.mem_append.mp h with h1 | h2
    · exact Or.inr ⟨w, by simp, h1⟩
    · rcases List.mem_cons.mp h2 with rfl | h3
      · exact Or.inl rfl
      · rcases mem_joinSpace (w2 :: rest) c h3 with h4 | ⟨w3, hw3, hcw⟩
        · exact Or.inl h4
        · exact Or.inr ⟨w3, List.mem_cons_of_mem w hw3, hcw⟩

theorem lowerStr_eq_self (s : JStr) (h : ∀ c ∈ s, jsToLowerCode c = c) :
    lowerStr s = s := by
  induction s with
  | nil => rfl
  | cons c cs ih =>
    have hc := h c (by simp)
    have ihs := ih (fun x hx => h x (by simp [hx]))
    rw [lowerStr] at ihs ⊢
    rw [List.map_cons, hc, ihs]

/-- The three stability facts about the output of `normalizeSeedPhrase`:
it is fixed by trimming, by lowercasing, and by splitting-and-rejoining. -/
theorem normalizeSeedPhrase_parts (p : JStr) :
    jsTrim (normalizeSeedPhrase p) = normalizeSeedPhrase p ∧
    lowerStr (normalizeSeedPhrase p) = normalizeSeedPhrase p ∧
    joinSpace (jsSplitWs (normalizeSeedPhrase p)) = normalizeSeedPhrase p := by
  rw [normalizeSeedPhrase]
  cases hq : lowerStr (jsTrim p) with
  | nil =>
    rw [show jsSplitWs [] = [[]] from rfl,
      show joinSpace [[]] = ([] : JStr) from rfl]
    exact ⟨rfl, rfl, rfl⟩
  | cons c q2 =>
    have hlow : ∀ x ∈ lowerStr (jsTrim p), jsToLowerCode x = x := by
      intro x hx
      rw [lowerStr] at hx
      obtain ⟨y, hy, rfl⟩ := List.mem_map.mp hx
      exact jsToLowerCode_idem y
    have hcnws : isWsCode c = false := by
      have hmap : (lowerStr (jsTrim p)).head? = some c := by rw [hq]; rfl
      rw [lowerStr, List.head?_map] at hmap
      cases hh : (jsTrim p).head? with
      | none => rw [hh] at hmap; simp at hmap
      | some c0 =>
        rw [hh] at hmap
        rw [show Option.map jsToLowerCode (some c0) =
          some (jsToLowerCode c0) from rfl] at hmap
        injection hmap with hmap
        rw [← hmap, isWsCode_jsToLowerCode]
        exact (jsTrim_head_last p).1 c0 hh
    rw [show jsSplitWs (c :: q2) = wordsOf (c :: q2) from rfl]
    have hWprops := wordsOf_props (c :: q2)
    have hWne : wordsOf (c :: q2) ≠ [] := by
      rw [wordsOf_cons_nonws c q2 hcnws]
      simp
    have hprops2 : ∀ w ∈ wordsOf (c :: q2),
        w ≠ [] ∧ ∀ x ∈ w, isWsCode x = false := by
      intro w hw
      exact ⟨(hWprops w hw).1, fun x hx => ((hWprops w hw).2 x hx).1⟩
    obtain ⟨w0, W2, hW⟩ := List.exists_cons_of_ne_nil hWne
    obtain ⟨c0, w02, hw0⟩ := List.exists_cons_of_ne_nil
      ((hprops2 w0 (by rw [hW]; simp)).1)
    have hchars : ∀ x ∈ joinSpace (wordsOf (c :: q2)), jsToLowerCode x = x ∧
        isWsCode x = false ∨ x = 32 := by
      intro x hx
      rcases mem_joinSpace _ x hx with rfl | ⟨w, hwmem, hxw⟩
      · right; rfl
      · left
        have h3 := (hWprops w hwmem).2 x hxw
        refine ⟨?_, h3.1⟩
        have : x ∈ lowerStr (jsTrim p) := by rw [hq]; exact h3.2
        exact hlow x this
    refine ⟨?_, ?_, ?_⟩
    · apply jsTrim_eq_self
      · intro x hx
        rw [hW, hw0, joinSpace_head] at hx
        injection hx with hx
        rw [← hx]
        have hmem0 : (c0 :: w02) ∈ wordsOf (c :: q2) := by
          rw [hW, ← hw0]
          simp
        exact ((hWprops (c0 :: w02) hmem0).2 c0 (by simp)).1
      · intro x hx
        obtain ⟨x2, hx2, w3, hw3, hxw3⟩ := joinSpace_getLast
          (wordsOf (c :: q2)) hWne (fun w hw => (hprops2 w hw).1)
        rw [hx2] at hx
        injection hx with hx
        rw [← hx]
        exact ((hWprops w3 hw3).2 x2 hxw3).1
    · apply lowerStr_eq_self
      intro x hx
      rcases hchars x hx with ⟨h1, _⟩ | rfl
      · exact h1
      · rfl
    · have hjne : joinSpace (wordsOf (c :: q2)) ≠ [] := by
        rw [hW, hw0]
        exact joinSpace_ne_nil c0 w02 W2
      rw [jsSplitWs, if_neg (by simpa [List.isEmpty_iff] using hjne)]
      rw [wordsOf_joinSpace (wordsOf (c :: q2)) hWne hprops2]

/-! ## bip39: bit-level lemmas -/

theorem bitsToNatBE_cons (b : Nat) (g : List Nat) :
    bitsToNatBE (b :: g) = b * 2 ^ g.length + bitsToNatBE g := by
  have hacc : ∀ (g : List Nat) (a : Nat),
      g.foldl (fun x y => 2 * x + y) a =
        a * 2 ^ g.length + g.foldl (fun x y => 2 * x + y) 0 := by
    intro g
    induction g with
    | nil => intro a; simp
    | cons c g2 ih =>
      intro a
      simp only [List.foldl_cons, List.length_cons, Nat.mul_zero, Nat.zero_add]
      rw [ih (2 * a + c), ih c]
      ring
  rw [bitsToNatBE, bitsToNatBE, List.foldl_cons]
  simpa using hacc g b

theorem bitsToNatBE_lt : ∀ (g : List Nat), (∀ b ∈ g, b < 2) →
    bitsToNatBE g < 2 ^ g.length
  | [], _ => by simp [bitsToNatBE]
  | b :: g, h => by
    have hb : b < 2 := h b (by simp)
    have ih := bitsToNatBE_lt g (fun x hx => h x (by simp [hx]))
    rw [bitsToNatBE_cons, List.length_cons, pow_succ]
    interval_cases b <;> omega

theorem natToBits_length (w n : Nat) : (natToBits w n).length = w := by
  induction w generalizing n with
  | zero => rfl
  | succ w2 ih => simp [natToBits, ih]

theorem natToBits_lt (w n : Nat) : ∀ b ∈ natToBits w n, b < 2 := by
  induction w generalizing n with
  | zero => simp [natToBits]
  | succ w2 ih =>
    intro b hb
    rw [natToBits] at hb
    rcases List.mem_cons.mp hb with rfl | hmem
    · exact Nat.mod_lt _ (by norm_num)
    · exact ih n b hmem

theorem natToBits_add_mul (w : Nat) : ∀ (d M : Nat),
    natToBits w (d * 2 ^ w + M) = natToBits w M := by
  induction w with
  | zero => intro d M; rfl
  | succ w2 ih =>
    intro d M
    rw [natToBits, natToBits]
    have h1 : d * 2 ^ (w2 + 1) + M = 2 * d * 2 ^ w2 + M := by ring
    rw [h1]
    have h2 : (2 * d * 2 ^ w2 + M) / 2 ^ w2 % 2 = M / 2 ^ w2 % 2 := by
      have hp : 0 < 2 ^ w2 := Nat.pos_pow_of_pos w2 (by norm_num)
      rw [Nat.add_comm, show 2 * d * 2 ^ w2 = 2 ^ w2 * (2 * d) from by ring,
        Nat.add_mul_div_left _ _ hp]
      omega
    rw [h2, ih (2 * d) M]

theorem natToBits_bitsToNatBE : ∀ (g : List Nat), (∀ b ∈ g, b < 2) →
    natToBits g.length (bitsToNatBE g) = g
  | [], _ => rfl
  | b :: g, h => by
    have hb : b < 2 := h b (by simp)
    have hlt := bitsToNatBE_lt g (fun x hx => h x (by simp [hx]))
    have ih := natToBits_bitsToNatBE g (fun x hx => h x (by simp [hx]))
    rw [bitsToNatBE_cons, List.length_cons, natToBits]
    have hhead : (b * 2 ^ g.length + bitsToNatBE g) / 2 ^ g.length % 2 = b := by
      rw [mulAddDiv (2 ^ g.length) b (bitsToNatBE g)
        (Nat.pos_pow_of_pos _ (by norm_num)) hlt]
      omega
    rw [hhead, natToBits_add_mul g.length b (bitsToNatBE g), ih]

theorem bytesToBits_length : ∀ (e : List Nat),
    (bytesToBits e).length = 8 * e.length
  | [] => rfl
  | b :: e => by
    simp [bytesToBits, byteToBits, bytesToBits_length e]
    omega

theorem bytesToBits_lt : ∀ (e : List Nat), ∀ b ∈ bytesToBits e, b < 2
  | [] => by simp [bytesToBits]
  | x :: e => by
    intro b hb
    rw [bytesToBits] at hb
    rcases List.mem_append.mp hb with h1 | h2
    · rw [byteToBits] at h1
      simp only [List.mem_cons, List.mem_singleton] at h1
      rcases h1 with rfl | rfl | rfl | rfl | rfl | rfl | rfl | h1 <;>
        first
          | exact Nat.mod_lt _ (by norm_num)
          | (simp at h1; subst h1; exact Nat.mod_lt _ (by norm_num))
    · exact bytesToBits_lt e b h2

theorem bitsToBytes_bytesToBits : ∀ (e : List Nat), (∀ x ∈ e, x < 256) →
    bitsToBytes (bytesToBits e) = e
  | [], _ => rfl
  | b :: e, h => by
    have hb : b < 256 := h b (by simp)
    have ih := bitsToBytes_bytesToBits e (fun x hx => h x (by simp [hx]))
    rw [show bytesToBits (b :: e) = byteToBits b ++ bytesToBits e from rfl,
      byteToBits]
    rw [show ([b / 128 % 2, b / 64 % 2, b / 32 % 2, b / 16 % 2, b / 8 % 2,
        b / 4 % 2, b / 2 % 2, b % 2] ++ bytesToBits e) =
      b / 128 % 2 :: b / 64 % 2 :: b / 32 % 2 :: b / 16 % 2 :: b / 8 % 2 ::
        b / 4 % 2 :: b / 2 % 2 :: b % 2 :: bytesToBits e from rfl, bitsToBytes]
    rw [ih]
    congr 1
    omega

theorem blocks_length (l : List Nat) :
    (l.foldr (fun i acc => natToBits 11 i ++ acc) []).length = 11 * l.length := by
  induction l with
  | nil => rfl
  | cons i l2 ih =>
    simp [List.foldr_cons, ih, natToBits_length]
    ring

theorem chunks_spec : ∀ (bits : List Nat), (∀ b ∈ bits, b < 2) →
    bits.length % 11 = 0 →
    (((chunk11 bits).map bitsToNatBE).foldr
      (fun i acc => natToBits 11 i ++ acc) [] = bits) ∧
    (∀ i ∈ (chunk11 bits).map bitsToNatBE, i < 2048)
  | [], _, _ => by constructor <;> simp [chunk11]
  | [b0], _, hlen => by simp at hlen
  | [b0, b1], _, hlen => by simp at hlen
  | [b0, b1, b2], _, hlen => by simp at hlen
  | [b0, b1, b2, b3], _, hlen => by simp at hlen
  | [b0, b1, b2, b3, b4], _, hlen => by simp at hlen
  | [b0, b1, b2, b3, b4, b5], _, hlen => by simp at hlen
  | [b0, b1, b2, b3, b4, b5, b6], _, hlen => by simp at hlen
  | [b0, b1, b2, b3, b4, b5, b6, b7], _, hlen => by simp at hlen
  | [b0, b1, b2, b3, b4, b5, b6, b7, b8], _, hlen => by simp at hlen
  | [b0, b1, b2, b3, b4, b5, b6, b7, b8, b9], _, hlen => by simp at hlen
  | b0 :: b1 :: b2 :: b3 :: b4 :: b5 :: b6 :: b7 :: b8 :: b9 :: b10 :: rest,
      hb, hlen => by
    have hrest : rest.length % 11 = 0 := by
      simp only [List.length_cons] at hlen
      omega
    have hbr : ∀ b ∈ rest, b < 2 := fun x hx => hb x (by simp [hx])
    have ih := chunks_spec rest hbr hrest
    have hg : ∀ b ∈ [b0, b1, b2, b3, b4, b5, b6, b7, b8, b9, b10], b < 2 := by
      intro x hx
      apply hb
      simp only [List.mem_cons, List.mem_singleton] at hx ⊢
      tauto
    have hginv := natToBits_bitsToNatBE
      [b0, b1, b2, b3, b4, b5, b6, b7, b8, b9, b10] hg
    have hglt := bitsToNatBE_lt
      [b0, b1, b2, b3, b4, b5, b6, b7, b8, b9, b10] hg
    rw [show ([b0, b1, b2, b3, b4, b5, b6, b7, b8, b9, b10] :
      List Nat).length = 11 from rfl] at hginv hglt
    constructor
    · rw [chunk11, List.map_cons, List.foldr_cons, hginv, ih.1]
      rfl
    · intro i hi
      rw [chunk11, List.map_cons] at hi
      rcases List.mem_cons.mp hi with rfl | hmem
      · simpa using hglt
      · exact ih.2 i hmem

/-! ## bip39: word-level lemmas -/

theorem wordIndexOf_wordCodes (i : Nat) (h : i < 2048) :
    wordIndexOf (wordCodes i) = some i := by
  have h1 : 97 + i / 1024 < 99 := by omega
  have h2 : 97 + i / 32 % 32 < 129 := by omega
  have h3 : 97 + i % 32 < 129 := by omega
  rw [wordCodes]
  rw [show wordIndexOf [119, 97 + i / 1024, 97 + i / 32 % 32, 97 + i % 32] =
    if 97 ≤ 97 + i / 1024 ∧ 97 + i / 1024 < 99 ∧ 97 ≤ 97 + i / 32 % 32 ∧
        97 + i / 32 % 32 < 129 ∧ 97 ≤ 97 + i % 32 ∧ 97 + i % 32 < 129 then
      some ((97 + i / 1024 - 97) * 1024 + (97 + i / 32 % 32 - 97) * 32 +
        (97 + i % 32 - 97))
    else none from rfl]
  rw [if_pos ⟨by omega, h1, by omega, h2, by omega, h3⟩]
  simp only [Option.some.injEq]
  omega

theorem mapOption_inverse : ∀ (l : List Nat), (∀ i ∈ l, i < 2048) →
    mapOption wordIndexOf (l.map wordCodes) = some l
  | [], _ => rfl
  | i :: l, h => by
    rw [List.map_cons, mapOption, wordIndexOf_wordCodes i (h i (by simp)),
      mapOption_inverse l (fun x hx => h x (by simp [hx]))]

theorem splitSingleSpace_no32 : ∀ (w : JStr), (∀ c ∈ w, c ≠ 32) →
    splitSingleSpace w = [w]
  | [], _ => rfl
  | c :: w, h => by
    rw [splitSingleSpace, if_neg (h c (by simp)),
      splitSingleSpace_no32 w (fun x hx => h x (by simp [hx]))]

theorem splitSingleSpace_append : ∀ (w t : JStr), (∀ c ∈ w, c ≠ 32) →
    splitSingleSpace (w ++ 32 :: t) = w :: splitSingleSpace t
  | [], t, _ => by
    rw [List.nil_append, splitSingleSpace, if_pos rfl]
  | c :: w, t, h => by
    rw [List.cons_append, splitSingleSpace, if_neg (h c (by simp)),
      splitSingleSpace_append w t (fun x hx => h x (by simp [hx]))]

theorem splitSingleSpace_joinSpace : ∀ (W : List JStr), W ≠ [] →
    (∀ w ∈ W, ∀ c ∈ w, c ≠ 32) →
    splitSingleSpace (joinSpace W) = W
  | [], h, _ => absurd rfl h
  | [w], _, h => by
    rw [show joinSpace [w] = w from rfl, splitSingleSpace_no32 w (h w (by simp))]
  | w :: w2 :: rest, _, h => by
    rw [show joinSpace (w :: w2 :: rest) =
      w ++ 32 :: joinSpace (w2 :: rest) from rfl,
      splitSingleSpace_append w _ (h w (by simp)),
      splitSingleSpace_joinSpace (w2 :: rest) (by simp)
        (fun x hx => h x (by simp [hx]))]

theorem wordCodes_ge97 (i : Nat) : ∀ c ∈ wordCodes i, 97 ≤ c := by
  intro c hc
  rw [wordCodes] at hc
  simp only [List.mem_cons, List.mem_singleton] at hc
  rcases hc with rfl | rfl | rfl | rfl | h
  · omega
  · omega
  · omega
  · omega
  · simp at h

theorem ge97_facts (c : Nat) (h : 97 ≤ c) :
    isWsCode c = false ∧ c ≠ 32 ∧ jsToLowerCode c = c := by
  refine ⟨?_, by omega, ?_⟩
  · rw [isWsCode]
    exact decide_eq_false (by omega)
  · rw [jsToLowerCode, if_neg (by omega)]

theorem mnemonicToEntropyOpt_mnemonic (e : List Nat) (he : ∀ x ∈ e, x < 256)
    (hel : e.length = 16) :
    mnemonicToEntropyOpt (entropyToMnemonic e) = some e := by
  have hlen8 : (bytesToBits e).length = 128 := by rw [bytesToBits_length, hel]
  have hcslen : (deriveChecksumBits e).length = 4 := by
    rw [deriveChecksumBits, natToBits_length, hel]
  have hblen : (bytesToBits e ++ deriveChecksumBits e).length = 132 := by
    rw [List.length_append, hlen8, hcslen]
  have hbbits : ∀ b ∈ bytesToBits e ++ deriveChecksumBits e, b < 2 := by
    intro b hb
    rcases List.mem_append.mp hb with h1 | h2
    · exact bytesToBits_lt e b h1
    · exact natToBits_lt _ _ b h2
  have hch := chunks_spec (bytesToBits e ++ deriveChecksumBits e) hbbits
    (by rw [hblen])
  have hIlen : ((chunk11 (bytesToBits e ++ deriveChecksumBits e)).map
      bitsToNatBE).length = 12 := by
    have hb2 := blocks_length
      ((chunk11 (bytesToBits e ++ deriveChecksumBits e)).map bitsToNatBE)
    rw [hch.1, hblen] at hb2
    omega
  have hwordsne : ((chunk11 (bytesToBits e ++ deriveChecksumBits e)).map
      bitsToNatBE).map wordCodes ≠ [] := by
    intro hcon
    have := congrArg List.length hcon
    rw [List.length_map, hIlen] at this
    simp at this
  have hno32 : ∀ w ∈ ((chunk11 (bytesToBits e ++ deriveChecksumBits e)).map
      bitsToNatBE).map wordCodes, ∀ c ∈ w, c ≠ 32 := by
    intro w hw c hc
    obtain ⟨i, hi, rfl⟩ := List.mem_map.mp hw
    exact (ge97_facts c (wordCodes_ge97 i c hc)).2.1
  rw [show entropyToMnemonic e = joinSpace
    (((chunk11 (bytesToBits e ++ deriveChecksumBits e)).map bitsToNatBE).map
      wordCodes) from rfl]
  rw [mnemonicToEntropyOpt]
  rw [splitSingleSpace_joinSpace _ hwordsne hno32]
  rw [List.length_map, hIlen]
  rw [if_neg (by norm_num)]
  rw [mapOption_inverse _ hch.2]
  simp only []
  rw [hch.1, hblen]
  rw [show (132 : Nat) / 33 * 32 = 128 from rfl]
  rw [show (128 : Nat) = (bytesToBits e).length from hlen8.symm]
  rw [List.take_left, List.drop_left]
  rw [bitsToBytes_bytesToBits e he]
  rw [if_neg (by rw [hel]; simp)]
  rw [if_pos rfl]

/-- The generated mnemonic is already normalized and validates. -/
theorem entropyToMnemonic_normalized (e : List Nat) (he : ∀ x ∈ e, x < 256)
    (hel : e.length = 16) :
    normalizeSeedPhrase (entropyToMnemonic e) = entropyToMnemonic e ∧
    validateSeedPhrase (entropyToMnemonic e) = true := by
  have hlen8 : (bytesToBits e).length = 128 := by rw [bytesToBits_length, hel]
  have hcslen : (deriveChecksumBits e).length = 4 := by
    rw [deriveChecksumBits, natToBits_length, hel]
  have hblen : (bytesToBits e ++ deriveChecksumBits e).length = 132 := by
    rw [List.length_append, hlen8, hcslen]
  have hbbits : ∀ b ∈ bytesToBits e ++ deriveChecksumBits e, b < 2 := by
    intro b hb
    rcases List.mem_append.mp hb with h1 | h2
    · exact bytesToBits_lt e b h1
    · exact natToBits_lt _ _ b h2
  have hch := chunks_spec (bytesToBits e ++ deriveChecksumBits e) hbbits
    (by rw [hblen])
  have hIlen : ((chunk11 (bytesToBits e ++ deriveChecksumBits e)).map
      bitsToNatBE).length = 12 := by
    have hb2 := blocks_length
      ((chunk11 (bytesToBits e ++ deriveChecksumBits e)).map bitsToNatBE)
    rw [hch.1, hblen] at hb2
    omega
  have heq : entropyToMnemonic e = joinSpace
      (((chunk11 (bytesToBits e ++ deriveChecksumBits e)).map bitsToNatBE).map
        wordCodes) := rfl
  have hwordsne : ((chunk11 (bytesToBits e ++ deriveChecksumBits e)).map
      bitsToNatBE).map wordCodes ≠ [] := by
    intro hcon
    have := congrArg List.length hcon
    rw [List.length_map, hIlen] at this
    simp at this
  have hwprops : ∀ w ∈ ((chunk11 (bytesToBits e ++ deriveChecksumBits e)).map
      bitsToNatBE).map wordCodes, w ≠ [] ∧ ∀ c ∈ w, isWsCode c = false := by
    intro w hw
    obtain ⟨i, hi, rfl⟩ := List.mem_map.mp hw
    exact ⟨by rw [wordCodes]; simp,
      fun c hc => (ge97_facts c (wordCodes_ge97 i c hc)).1⟩
  obtain ⟨w0, W2, hW⟩ := List.exists_cons_of_ne_nil hwordsne
  obtain ⟨c0, w02, hw0⟩ := List.exists_cons_of_ne_nil
    ((hwprops w0 (by rw [hW]; simp)).1)
  have htrim : jsTrim (entropyToMnemonic e) = entropyToMnemonic e := by
    rw [heq]
    apply jsTrim_eq_self
    · intro x hx
      rw [hW, hw0, joinSpace_head] at hx
      injection hx with hx
      rw [← hx]
      have hmem0 : (c0 :: w02) ∈ ((chunk11 (bytesToBits e ++
          deriveChecksumBits e)).map bitsToNatBE).map wordCodes := by
        rw [hW, ← hw0]
        simp
      exact ((hwprops (c0 :: w02) hmem0).2 c0 (by simp))
    · intro x hx
      obtain ⟨x2, hx2, w3, hw3, hxw3⟩ := joinSpace_getLast _ hwordsne
        (fun w hw => (hwprops w hw).1)
      rw [hx2] at hx
      injection hx with hx
      rw [← hx]
      exact (hwprops w3 hw3).2 x2 hxw3
  have hlower : lowerStr (entropyToMnemonic e) = entropyToMnemonic e := by
    rw [heq]
    apply lowerStr_eq_self
    intro x hx
    rcases mem_joinSpace _ x hx with rfl | ⟨w, hwmem, hxw⟩
    · rfl
    · obtain ⟨i, hi, rfl⟩ := List.mem_map.mp hwmem
      exact (ge97_facts x (wordCodes_ge97 i x hxw)).2.2
  have hsplitws : jsSplitWs (entropyToMnemonic e) =
      ((chunk11 (bytesToBits e ++ deriveChecksumBits e)).map bitsToNatBE).map
        wordCodes := by
    rw [heq, jsSplitWs, if_neg (by
      rw [hW, hw0]
      simpa [List.isEmpty_iff] using joinSpace_ne_nil c0 w02 W2)]
    exact wordsOf_joinSpace _ hwordsne hwprops
  constructor
  · rw [normalizeSeedPhrase, htrim, hlower, hsplitws, ← heq]
  · rw [validateSeedPhrase, htrim, hlower, hsplitws]
    rw [List.length_map, hIlen, SEED_PHRASE_CONFIG_WORD_COUNT]
    rw [if_neg (by norm_num)]
    rw [validateMnemonic, mnemonicToEntropyOpt_mnemonic e he hel]
    rfl

theorem normalizeSeedPhrase_idem (p : JStr) :
    normalizeSeedPhrase (normalizeSeedPhrase p) = normalizeSeedPhrase p := by
  obtain ⟨h1, h2, h3⟩ := normalizeSeedPhrase_parts p
  rw [normalizeSeedPhrase, h1, h2, h3]

/-! # Claims -/

set_option maxRecDepth 100000

/-- C1: for every byte buffer `d` (including the empty buffer) and every
Base64-encoded 32-byte key `k`, `decrypt(encrypt(d, k), k)` succeeds and
returns exactly `d`.  The fresh random nonce drawn inside `encrypt` is the
explicit 24-byte `nonce` argument. -/
theorem encrypt_decrypt_roundtrip (d : List Nat) (k : JStr) (kb nonce : List Nat)
    (hd : ∀ b ∈ d, b < 256)
    (hk : decodeBase64Opt k = some kb) (hklen : kb.length = 32)
    (hn : nonce.length = 24) :
    ∃ p, encrypt d k nonce = .ok p ∧ decrypt p k = .ok d := by
  refine ⟨_, encrypt_eq d k kb nonce hk hklen, ?_⟩
  rw [decrypt_payload nonce d kb k hk hklen hn,
    secretboxOpen_secretbox d nonce kb hd]

theorem encrypt_decrypt_roundtrip_witness :
    decodeBase64Opt (encodeBase64 (List.replicate 32 0)) =
      some (List.replicate 32 0) ∧
    ∃ p, encrypt [10, 20, 30] (encodeBase64 (List.replicate 32 0))
        (List.range 24) = .ok p ∧
      decrypt p (encodeBase64 (List.replicate 32 0)) = .ok [10, 20, 30] :=
  ⟨by decide,
   encrypt_decrypt_roundtrip [10, 20, 30] (encodeBase64 (List.replicate 32 0))
     (List.replicate 32 0) (List.range 24)
     (by decide) (by decide) (by decide) (by decide)⟩

/-- C5: with a well-formed key, `decrypt` fails `PayloadTooShort` when the
decoded payload is shorter than `1 + 24 + 16` bytes; otherwise fails
`UnknownVersion` when the version byte exceeds the highest known version 1;
otherwise, whenever the authenticated open rejects the ciphertext, fails
`DecryptionFailed` (and in particular returns no data). -/
theorem decrypt_error_taxonomy (payload key : JStr) (pb kb : List Nat)
    (hp : decodeBase64Opt payload = some pb)
    (hk : decodeBase64Opt key = some kb)
    (hklen : kb.length = 32) :
    (pb.length < 1 + 24 + 16 → decrypt payload key = .error .payloadTooShort) ∧
    (¬ pb.length < 1 + 24 + 16 → 1 < pb.headD 0 →
      decrypt payload key = .error .unknownVersion) ∧
    (¬ pb.length < 1 + 24 + 16 → pb.headD 0 = 1 →
      secretboxOpen (pb.drop 25) ((pb.drop 1).take 24) kb = none →
      decrypt payload key = .error .decryptionFailed) := by
  have hnk : ¬ kb.length ≠ KEY_LENGTHS_SECRET_KEY := by
    rw [KEY_LENGTHS_SECRET_KEY]; omega
  refine ⟨?_, ?_, ?_⟩
  · intro hshort
    rw [decrypt, hp, hk]
    simp only [if_neg hnk]
    rw [if_pos (by
      simp only [PAYLOAD_STRUCTURE_VERSION_BYTES, PAYLOAD_STRUCTURE_NONCE_BYTES,
        PAYLOAD_STRUCTURE_AUTH_TAG_BYTES]
      omega)]
  · intro hlong hver
    rw [decrypt, hp, hk]
    simp only [if_neg hnk]
    rw [if_neg (by
      simp only [PAYLOAD_STRUCTURE_VERSION_BYTES, PAYLOAD_STRUCTURE_NONCE_BYTES,
        PAYLOAD_STRUCTURE_AUTH_TAG_BYTES]
      omega)]
    rw [if_pos (by rw [CURRENT_PAYLOAD_VERSION]; omega)]
  · intro hlong hver hopen
    rw [decrypt, hp, hk]
    simp only [if_neg hnk]
    rw [if_neg (by
      simp only [PAYLOAD_STRUCTURE_VERSION_BYTES, PAYLOAD_STRUCTURE_NONCE_BYTES,
        PAYLOAD_STRUCTURE_AUTH_TAG_BYTES]
      omega)]
    rw [if_neg (by rw [CURRENT_PAYLOAD_VERSION]; omega), if_pos hver,
      decryptV1, hopen]

theorem decrypt_error_taxonomy_witness :
    decrypt
      (33 :: 1 :: List.replicate 24 0 ++
        (256 + tagCode (List.replicate 32 0) (List.replicate 24 0) [0]) ::
        List.replicate 15 0 ++ [1])
      (encodeBase64 (List.replicate 32 0)) = .error .decryptionFailed :=
  (decrypt_error_taxonomy _ _
      (1 :: List.replicate 24 0 ++
        (256 + tagCode (List.replicate 32 0) (List.replicate 24 0) [0]) ::
        List.replicate 15 0 ++ [1])
      (List.replicate 32 0)
      (by rfl) (by decide) (by decide)).2.2
    (by decide) (by rfl) (by decide)

/-- C7: two calls of `encrypt` on the same data and key yield different
payloads whenever the two randomly drawn 24-byte nonces differ. -/
theorem encrypt_nonce_distinct (d : List Nat) (k : JStr) (kb n1 n2 : List Nat)
    (hk : decodeBase64Opt k = some kb) (hklen : kb.length = 32)
    (h1 : n1.length = 24) (h2 : n2.length = 24) (hne : n1 ≠ n2) :
    encrypt d k n1 ≠ encrypt d k n2 := by
  rw [encrypt_eq d k kb n1 hk hklen, encrypt_eq d k kb n2 hk hklen,
    encodeBase64_payload, encodeBase64_payload]
  intro heq
  simp only [Except.ok.injEq] at heq
  have hcons := (List.append_inj heq (by simp [h1, h2])).1
  simp only [List.cons.injEq, true_and] at hcons
  exact hne hcons

theorem encrypt_nonce_distinct_witness :
    encrypt [7] (encodeBase64 (List.replicate 32 0)) (List.replicate 24 0) ≠
      encrypt [7] (encodeBase64 (List.replicate 32 0)) (List.range 24) :=
  encrypt_nonce_distinct [7] (encodeBase64 (List.replicate 32 0))
    (List.replicate 32 0) (List.replicate 24 0) (List.range 24)
    (by decide) (by decide) (by decide) (by decide) (by decide)


/-- C2: for every pair of 32-byte keypairs `A = (pubOf a, a)` and
`B = (pubOf b, b)` and every 32-byte secret `s`,
`decryptKeyFromSender(encryptKeyForRecipient(s, B.pub, A.priv), A.pub, B.priv)`
returns exactly `s`; decrypting the same payload with a third party's
private key, or with a sender public key other than `A.publicKey`, fails
with `DecryptionFailed`. -/
theorem keyExchange_roundtrip_auth (a b s nonce : List Nat)
    (ha : ∀ x ∈ a, x < 256) (hb : ∀ x ∈ b, x < 256) (hs : ∀ x ∈ s, x < 256)
    (hal : a.length = 32) (hbl : b.length = 32) (hsl : s.length = 32)
    (hn : nonce.length = 24) :
    ∃ p, encryptKeyForRecipient (encodeBase64 s) (encodeBase64 (pubOf b))
        (encodeBase64 a) nonce = .ok p ∧
      decryptKeyFromSender p (encodeBase64 (pubOf a)) (encodeBase64 b) =
        .ok (encodeBase64 s) ∧
      (∀ c, (∀ x ∈ c, x < 256) → c.length = 32 → c ≠ b →
        decryptKeyFromSender p (encodeBase64 (pubOf a)) (encodeBase64 c) =
          .error .decryptionFailed) ∧
      (∀ sp, (∀ x ∈ sp, x < 256) → sp.length = 32 → sp ≠ pubOf a →
        decryptKeyFromSender p (encodeBase64 sp) (encodeBase64 b) =
          .error .decryptionFailed) := by
  refine ⟨_, encryptKeyForRecipient_eq s (pubOf b) a nonce hsl hbl hal,
    decrypt_grant s a b nonce hs hsl hal hbl hn, ?_, ?_⟩
  · intro c hc hcl hne
    exact decryptKeyFromSender_wrongShared s (sharedKey (pubOf b) a) nonce
      (pubOf a) c (by omega) hn hal hcl
      (sharedKey_ne_wrongRecipient a b c ha hb hc hne)
  · intro sp hsp hspl hne
    exact decryptKeyFromSender_wrongShared s (sharedKey (pubOf b) a) nonce
      sp b (by omega) hn hspl hbl
      (sharedKey_ne_wrongSender a b sp ha hb hsp hne)

theorem keyExchange_roundtrip_auth_witness :
    ∃ p, encryptKeyForRecipient (encodeBase64 (List.range 32))
        (encodeBase64 (pubOf (List.replicate 32 2)))
        (encodeBase64 (List.replicate 32 1)) (List.replicate 24 5) = .ok p ∧
      decryptKeyFromSender p (encodeBase64 (pubOf (List.replicate 32 1)))
        (encodeBase64 (List.replicate 32 2)) =
        .ok (encodeBase64 (List.range 32)) ∧
      (∀ c, (∀ x ∈ c, x < 256) → c.length = 32 → c ≠ List.replicate 32 2 →
        decryptKeyFromSender p (encodeBase64 (pubOf (List.replicate 32 1)))
          (encodeBase64 c) = .error .decryptionFailed) ∧
      (∀ sp, (∀ x ∈ sp, x < 256) → sp.length = 32 →
        sp ≠ pubOf (List.replicate 32 1) →
        decryptKeyFromSender p (encodeBase64 sp)
          (encodeBase64 (List.replicate 32 2)) = .error .decryptionFailed) :=
  keyExchange_roundtrip_auth (List.replicate 32 1) (List.replicate 32 2)
    (List.range 32) (List.replicate 24 5)
    (by decide) (by decide) (by decide) (by decide) (by decide) (by decide)
    (by decide)


/-- C8: `decryptKeyFromSender` never returns a value that is not a 32-byte
key: any successful result is the Base64 encoding of a 32-byte plaintext,
and whenever the authenticated open succeeds on the payload but yields a
plaintext that is not exactly 32 bytes, the function fails with
`CorruptKey` instead of returning it. -/
theorem decryptKeyFromSender_output_spec
    (encryptedKey senderPublicKey recipientPrivateKey : JStr) :
    (∀ out, decryptKeyFromSender encryptedKey senderPublicKey
        recipientPrivateKey = .ok out →
      ∃ m, m.length = 32 ∧ out = encodeBase64 m) ∧
    (∀ pb sp rp m,
      decodeBase64Opt encryptedKey = some pb →
      decodeBase64Opt senderPublicKey = some sp →
      decodeBase64Opt recipientPrivateKey = some rp →
      sp.length = 32 → rp.length = 32 →
      ¬ pb.length < 1 + 24 + 32 + 16 → ¬ 1 < pb.headD 0 →
      boxOpen (pb.drop 25) ((pb.drop 1).take 24) sp rp = some m →
      m.length ≠ 32 →
      decryptKeyFromSender encryptedKey senderPublicKey recipientPrivateKey =
        .error .corruptKey) := by
  constructor
  · intro out h
    simp only [decryptKeyFromSender] at h
    repeat' split at h
    all_goals try (exact Except.noConfusion h)
    rename_i hne32
    simp only [Except.ok.injEq] at h
    refine ⟨_, ?_, h.symm⟩
    rw [KEY_LENGTHS_SECRET_KEY] at hne32
    omega
  · intro pb sp rp m hp hsp hrp hspl hrpl hlen hver hopen hm
    simp only [decryptKeyFromSender, hp, hsp, hrp]
    rw [if_neg (by simp [KEY_LENGTHS_PUBLIC_KEY, hspl]),
      if_neg (by simp [KEY_LENGTHS_PRIVATE_KEY, hrpl]),
      if_neg (by
        simp only [PAYLOAD_STRUCTURE_VERSION_BYTES, PAYLOAD_STRUCTURE_NONCE_BYTES,
          KEY_LENGTHS_SECRET_KEY, PAYLOAD_STRUCTURE_AUTH_TAG_BYTES]
        omega),
      if_neg (by rw [CURRENT_PAYLOAD_VERSION]; omega),
      hopen]
    simp only [KEY_LENGTHS_SECRET_KEY]
    rw [if_pos hm]

theorem decryptKeyFromSender_output_spec_witness :
    decryptKeyFromSender
      (encodeBase64 (1 :: List.replicate 24 0 ++
        box (List.replicate 33 0) (List.replicate 24 0)
          (pubOf (List.replicate 32 0)) (List.replicate 32 0)))
      (encodeBase64 (pubOf (List.replicate 32 0)))
      (encodeBase64 (List.replicate 32 0)) = .error .corruptKey :=
  (decryptKeyFromSender_output_spec _ _ _).2
    (1 :: List.replicate 24 0 ++
      box (List.replicate 33 0) (List.replicate 24 0)
        (pubOf (List.replicate 32 0)) (List.replicate 32 0))
    (List.replicate 32 0) (List.replicate 32 0) (List.replicate 33 0)
    (by rw [decodeBase64Opt_encodeBase64]) (by decide) (by decide)
    (by decide) (by decide) (by decide) (by decide) (by decide) (by decide)


/-- C10: `validateKey`, `validatePublicKey`, `validatePrivateKey` and
`validateSymmetricKey` are total: on every input string, including strings
that are not valid Base64, they return a boolean, `false` whenever decoding
fails, and `true` exactly when the string decodes to the expected number of
bytes. -/
theorem validateKey_total_spec (key : JStr) :
    (decodeBase64Opt key = none →
      validateKey key 32 = false ∧ validatePublicKey key = false ∧
      validatePrivateKey key = false ∧ validateSymmetricKey key = false) ∧
    (∀ n, validateKey key n = true ↔
      ∃ d, decodeBase64Opt key = some d ∧ d.length = n) := by
  constructor
  · intro h
    simp [validateKey, validatePublicKey, validatePrivateKey,
      validateSymmetricKey, KEY_LENGTHS_PUBLIC_KEY, KEY_LENGTHS_PRIVATE_KEY,
      KEY_LENGTHS_SECRET_KEY, h]
  · intro n
    constructor
    · intro h
      cases hd : decodeBase64Opt key with
      | none => rw [validateKey, hd] at h; exact absurd h (by simp)
      | some d =>
        rw [validateKey, hd] at h
        exact ⟨d, rfl, by simpa using h⟩
    · rintro ⟨d, hd, hlen⟩
      rw [validateKey, hd]
      simp [hlen]

theorem validateKey_total_spec_witness :
    validateKey [64] 32 = false ∧ validatePublicKey [64] = false ∧
      validatePrivateKey [64] = false ∧ validateSymmetricKey [64] = false :=
  (validateKey_total_spec [64]).1 (by decide)


/-- C6: for every gallery key, recipient list of well-formed keypairs and
sender private key, `encryptGalleryKeyForMembers` returns exactly one grant
per input recipient, carrying that recipient's `userId` and a payload from
which that recipient's private key recovers exactly the gallery key; and
when the per-recipient encryption fails for any recipient, the whole batch
fails with an error instead of returning a partial grant list. -/
theorem encryptGalleryKeyForMembers_spec :
    (∀ (gkb a : List Nat) (members : List (JStr × List Nat))
        (nonces : List (List Nat)),
      (∀ x ∈ gkb, x < 256) → gkb.length = 32 → a.length = 32 →
      (∀ mem ∈ members, mem.2.length = 32) →
      nonces.length = members.length →
      (∀ nn ∈ nonces, nn.length = 24) →
      ∃ grants,
        encryptGalleryKeyForMembers (encodeBase64 gkb)
          (members.map (fun mem => ⟨mem.1, encodeBase64 (pubOf mem.2)⟩))
          (encodeBase64 a) nonces = .ok grants ∧
        grants.length = members.length ∧
        ∀ i, i < members.length →
          (grants.getD i default).userId = (members.getD i default).1 ∧
          decryptKeyFromSender (grants.getD i default).encryptedGalleryKey
            (encodeBase64 (pubOf a))
            (encodeBase64 (members.getD i default).2) =
            .ok (encodeBase64 gkb)) ∧
    (∀ (galleryKey senderPrivateKey : JStr) (recipients : List Recipient)
        (nonces : List (List Nat)) (i : Nat) (e : CryptoError),
      i < recipients.length → i < nonces.length →
      encryptKeyForRecipient galleryKey (recipients.getD i default).publicKey
        senderPrivateKey (nonces.getD i default) = .error e →
      ∃ e2, encryptGalleryKeyForMembers galleryKey recipients
        senderPrivateKey nonces = .error e2) := by
  constructor
  · intro gkb a members nonces hg hgl hal hmem hlen hnn
    refine ⟨_, encryptGalleryKeyForMembers_ok gkb a hgl hal members nonces hmem,
      ?_, ?_⟩
    · rw [List.length_zipWith]
      omega
    · intro i hi
      have hiz : i < (List.zipWith
          (fun mem nn =>
            (⟨mem.1, encodeBase64 (1 :: nn ++ box gkb nn (pubOf mem.2) a)⟩ :
              MemberGrant))
          members nonces).length := by
        rw [List.length_zipWith]
        omega
      have him : i < members.length := hi
      have hin : i < nonces.length := by omega
      rw [List.getD_eq_getElem _ _ hiz, List.getD_eq_getElem _ _ him,
        List.getElem_zipWith]
      refine ⟨rfl, ?_⟩
      exact decrypt_grant gkb a (members[i].2) (nonces[i]) hg hgl hal
        (hmem members[i] (List.getElem_mem him))
        (hnn nonces[i] (List.getElem_mem hin))
  · intro galleryKey senderPrivateKey recipients nonces i e hir hin herr
    have hiz : i < (recipients.zip nonces).length := by
      rw [List.length_zip]
      omega
    apply mapExcept_error_of_mem _ (recipients.zip nonces)
      ((recipients.zip nonces)[i])
      (List.getElem_mem hiz)
    refine ⟨e, ?_⟩
    have hz : (recipients.zip nonces)[i] =
        (recipients[i], nonces[i]) := List.getElem_zip
    rw [hz]
    simp only []
    rw [List.getD_eq_getElem _ _ hir, List.getD_eq_getElem _ _ hin] at herr
    rw [herr]

theorem encryptGalleryKeyForMembers_spec_witness :
    (∃ grants,
      encryptGalleryKeyForMembers (encodeBase64 (List.range 32))
        (([([1], List.replicate 32 2), ([2], List.replicate 32 3)] :
            List (JStr × List Nat)).map
          (fun mem => ⟨mem.1, encodeBase64 (pubOf mem.2)⟩))
        (encodeBase64 (List.replicate 32 1))
        [List.replicate 24 0, List.replicate 24 9] = .ok grants ∧
      grants.length = 2 ∧
      ∀ i, i < 2 →
        (grants.getD i default).userId =
          (([([1], List.replicate 32 2), ([2], List.replicate 32 3)] :
              List (JStr × List Nat)).getD i default).1 ∧
        decryptKeyFromSender (grants.getD i default).encryptedGalleryKey
          (encodeBase64 (pubOf (List.replicate 32 1)))
          (encodeBase64 (([([1], List.replicate 32 2),
            ([2], List.replicate 32 3)] :
              List (JStr × List Nat)).getD i default).2) =
          .ok (encodeBase64 (List.range 32))) ∧
    (∃ e2, encryptGalleryKeyForMembers (encodeBase64 (List.range 32))
      [⟨[], [64]⟩] (encodeBase64 (List.replicate 32 1))
      [List.replicate 24 0] = .error e2) :=
  ⟨encryptGalleryKeyForMembers_spec.1 (List.range 32) (List.replicate 32 1)
      [([1], List.replicate 32 2), ([2], List.replicate 32 3)]
      [List.replicate 24 0, List.replicate 24 9]
      (by decide) (by decide) (by decide) (by decide) (by decide) (by decide),
   encryptGalleryKeyForMembers_spec.2 (encodeBase64 (List.range 32))
      (encodeBase64 (List.replicate 32 1)) [⟨[], [64]⟩]
      [List.replicate 24 0] 0 .badEncoding
      (by decide) (by decide) (by rfl)⟩


/-- C3: keypair derivation depends only on the normalized phrase: any two
phrases with the same normalization (casing and whitespace variants of the
same word sequence) derive the identical keypair, and in particular
`deriveKeyPairFromSeedPhrase p = deriveKeyPairFromSeedPhrase (normalizeSeedPhrase p)`
for every phrase; repeated calls are byte-identical since the embedding is a
pure function of the phrase. -/
theorem deriveKeyPair_normalize_invariant :
    (∀ p q : JStr, normalizeSeedPhrase p = normalizeSeedPhrase q →
      deriveKeyPairFromSeedPhrase p = deriveKeyPairFromSeedPhrase q) ∧
    ∀ p : JStr, deriveKeyPairFromSeedPhrase p =
      deriveKeyPairFromSeedPhrase (normalizeSeedPhrase p) := by
  have hcong : ∀ p q : JStr, normalizeSeedPhrase p = normalizeSeedPhrase q →
      deriveKeyPairFromSeedPhrase p = deriveKeyPairFromSeedPhrase q := by
    intro p q h
    rw [deriveKeyPairFromSeedPhrase, h, deriveKeyPairFromSeedPhrase]
  exact ⟨hcong,
    fun p => hcong p (normalizeSeedPhrase p) (normalizeSeedPhrase_idem p).symm⟩

theorem deriveKeyPair_normalize_invariant_witness :
    normalizeSeedPhrase [65, 32, 32, 98] = normalizeSeedPhrase [97, 32, 98] ∧
    deriveKeyPairFromSeedPhrase [65, 32, 32, 98] =
      deriveKeyPairFromSeedPhrase [97, 32, 98] :=
  ⟨by decide, deriveKeyPair_normalize_invariant.1 _ _ (by decide)⟩

/-- C4 as frozen is false on the code: `seedPhraseToEntropy` normalizes the
phrase before validating, while `validateSeedPhrase` hands the raw
(trimmed, lowercased, but not whitespace-collapsed) phrase to the bip39
check, which splits on single spaces.  A valid mnemonic written with a
double space is rejected by `validateSeedPhrase` yet `seedPhraseToEntropy`
still succeeds on it. -/
theorem seedPhraseToEntropy_claim_counterexample :
    validateSeedPhrase ([119, 97, 97, 97] ++ [32, 32] ++
      joinSpace (List.replicate 11 [119, 97, 97, 97])) = false ∧
    seedPhraseToEntropy ([119, 97, 97, 97] ++ [32, 32] ++
      joinSpace (List.replicate 11 [119, 97, 97, 97])) =
      .ok (List.replicate 16 0) :=
  ⟨by decide, by rfl⟩

/-- C4 (amended): `seedPhraseToEntropy(phrase)` fails with `InvalidPhrase`
exactly when `validateSeedPhrase(normalizeSeedPhrase(phrase))` returns
false; otherwise it returns the original 16 bytes of entropy that the
(normalized) word sequence encodes — in particular it inverts the
entropy-to-mnemonic encoding on every 16-byte entropy. -/
theorem seedPhraseToEntropy_spec_amended :
    (∀ p : JStr, seedPhraseToEntropy p = .error .invalidPhrase ↔
      validateSeedPhrase (normalizeSeedPhrase p) = false) ∧
    (∀ e : List Nat, (∀ x ∈ e, x < 256) → e.length = 16 →
      seedPhraseToEntropy (entropyToMnemonic e) = .ok e) := by
  constructor
  · intro p
    simp only [seedPhraseToEntropy]
    by_cases hv : validateSeedPhrase (normalizeSeedPhrase p) = false
    · rw [if_pos hv]
      exact iff_of_true rfl hv
    · rw [if_neg hv]
      have hv2 : validateSeedPhrase (normalizeSeedPhrase p) = true := by
        cases h2 : validateSeedPhrase (normalizeSeedPhrase p)
        · exact absurd h2 hv
        · rfl
      obtain ⟨h1, h2, h3⟩ := normalizeSeedPhrase_parts p
      rw [validateSeedPhrase, h1, h2] at hv2
      have hm : validateMnemonic (normalizeSeedPhrase p) = true := by
        by_cases hw : (jsSplitWs (normalizeSeedPhrase p)).length ≠
            SEED_PHRASE_CONFIG_WORD_COUNT
        · rw [if_pos hw] at hv2
          exact absurd hv2 (by simp)
        · rw [if_neg hw] at hv2
          exact hv2
      rw [validateMnemonic] at hm
      obtain ⟨ent, hent⟩ := Option.isSome_iff_exists.mp hm
      rw [hent]
      exact iff_of_false (by simp) hv
  · intro e he hel
    obtain ⟨hn, hval⟩ := entropyToMnemonic_normalized e he hel
    simp only [seedPhraseToEntropy, hn, hval]
    rw [if_neg (by simp)]
    rw [mnemonicToEntropyOpt_mnemonic e he hel]

theorem seedPhraseToEntropy_spec_amended_witness :
    seedPhraseToEntropy (entropyToMnemonic (List.replicate 16 0)) =
      .ok (List.replicate 16 0) :=
  seedPhraseToEntropy_spec_amended.2 (List.replicate 16 0)
    (by decide) (by decide)


/-! ## Quiz positions -/

theorem quizAfter_mono (draws : Nat → Nat) :
    ∀ k k2, k ≤ k2 → quizAfter draws k ⊆ quizAfter draws k2 := by
  intro k k2 h
  induction k2 with
  | zero =>
    have : k = 0 := by omega
    subst this
    exact Finset.Subset.refl _
  | succ j ih =>
    by_cases hk : k = j + 1
    · subst hk
      exact Finset.Subset.refl _
    · have hle : k ≤ j := by omega
      exact (ih hle).trans (Finset.subset_insert _ _)

theorem mem_quizAfter (draws : Nat → Nat) (i k : Nat) (h : i < k) :
    draws i ∈ quizAfter draws k := by
  have h1 : draws i ∈ quizAfter draws (i + 1) := by
    rw [quizAfter]
    exact Finset.mem_insert_self _ _
  exact quizAfter_mono draws (i + 1) k (by omega) h1

theorem quizAfter_subset_Icc (draws : Nat → Nat)
    (hvalid : ∀ i, 1 ≤ draws i ∧ draws i ≤ 12) :
    ∀ k, quizAfter draws k ⊆ Finset.Icc 1 12 := by
  intro k
  induction k with
  | zero => simp [quizAfter]
  | succ j ih =>
    rw [quizAfter]
    intro x hx
    rcases Finset.mem_insert.mp hx with rfl | hmem
    · exact Finset.mem_Icc.mpr ⟨(hvalid j).1, (hvalid j).2⟩
    · exact ih hmem

/-- C9: `generateQuizPositions(count)` terminates for every count between
0 and 12 (on any draw stream in range `1..12` that eventually hits every
position — the determinization of `Math.random`), and then returns `count`
distinct positions in `[1, 12]` sorted ascending; for every count greater
than 12 the sampling loop can never fill the set, so the loop never
terminates, on every draw stream. -/
theorem generateQuizPositions_spec (draws : Nat → Nat)
    (hvalid : ∀ i, 1 ≤ draws i ∧ draws i ≤ 12) :
    (∀ count, count ≤ 12 → (∀ v, 1 ≤ v → v ≤ 12 → ∃ i, draws i = v) →
      ∃ h : QuizTerminates draws count,
        (generateQuizPositions draws count h).length = count ∧
        (generateQuizPositions draws count h).Nodup ∧
        List.Sorted (· ≤ ·) (generateQuizPositions draws count h) ∧
        ∀ x ∈ generateQuizPositions draws count h, 1 ≤ x ∧ x ≤ 12) ∧
    (∀ count, 12 < count → ¬ QuizTerminates draws count) := by
  classical
  constructor
  · intro count hcount hfair
    have hsub : Finset.Icc 1 12 ⊆ quizAfter draws
        ((Finset.Icc 1 12).sup
          (fun v => if h : ∃ i, draws i = v then Nat.find h else 0) + 1) := by
      intro v hv
      have hv2 := Finset.mem_Icc.mp hv
      obtain ⟨i, hi⟩ := hfair v hv2.1 hv2.2
      have hex : ∃ i2, draws i2 = v := ⟨i, hi⟩
      have hfind : draws (Nat.find hex) = v := Nat.find_spec hex
      have hle := Finset.le_sup
        (f := fun v => if h : ∃ i2, draws i2 = v then Nat.find h else 0) hv
      simp only [] at hle
      rw [dif_pos hex] at hle
      have hmem := mem_quizAfter draws (Nat.find hex)
        ((Finset.Icc 1 12).sup
          (fun v => if h : ∃ i2, draws i2 = v then Nat.find h else 0) + 1)
        (by omega)
      rw [hfind] at hmem
      exact hmem
    have hterm : QuizTerminates draws count := by
      refine ⟨(Finset.Icc 1 12).sup
        (fun v => if h : ∃ i2, draws i2 = v then Nat.find h else 0) + 1, ?_⟩
      have h12 : (Finset.Icc 1 12).card = 12 := by
        rw [Nat.card_Icc]
      have hcle := Finset.card_le_card hsub
      omega
    refine ⟨hterm, ?_, ?_, ?_, ?_⟩
    · rw [generateQuizPositions, Finset.length_sort]
      have hge : count ≤ (quizAfter draws (Nat.find hterm)).card :=
        Nat.find_spec hterm
      cases hfind0 : Nat.find hterm with
      | zero =>
        have hz : (quizAfter draws 0).card = 0 := by simp [quizAfter]
        rw [hfind0] at hge
        rw [hz] at hge ⊢
        omega
      | succ j =>
        have hlt : ¬ count ≤ (quizAfter draws j).card :=
          Nat.find_min hterm (by omega)
        have hstep : (quizAfter draws (j + 1)).card ≤
            (quizAfter draws j).card + 1 := Finset.card_insert_le _ _
        rw [hfind0] at hge
        omega
    · exact Finset.sort_nodup _ _
    · exact Finset.sort_sorted _ _
    · intro x hx
      rw [generateQuizPositions, Finset.mem_sort] at hx
      have := quizAfter_subset_Icc draws hvalid (Nat.find hterm) hx
      exact Finset.mem_Icc.mp this
  · intro count hc hterm
    obtain ⟨k, hk⟩ := hterm
    have hcle := Finset.card_le_card (quizAfter_subset_Icc draws hvalid k)
    rw [Nat.card_Icc] at hcle
    omega

theorem generateQuizPositions_spec_witness :
    (∃ h : QuizTerminates (fun i => i % 12 + 1) 3,
      (generateQuizPositions (fun i => i % 12 + 1) 3 h).length = 3 ∧
      (generateQuizPositions (fun i => i % 12 + 1) 3 h).Nodup ∧
      List.Sorted (· ≤ ·) (generateQuizPositions (fun i => i % 12 + 1) 3 h) ∧
      ∀ x ∈ generateQuizPositions (fun i => i % 12 + 1) 3 h,
        1 ≤ x ∧ x ≤ 12) ∧
    ¬ QuizTerminates (fun i => i % 12 + 1) 13 :=
  ⟨(generateQuizPositions_spec (fun i => i % 12 + 1)
      (fun i => ⟨by show 1 ≤ i % 12 + 1; omega,
        by show i % 12 + 1 ≤ 12; omega⟩)).1 3
      (by omega) (fun v h1 h2 => ⟨v - 1, by show (v - 1) % 12 + 1 = v; omega⟩),
   (generateQuizPositions_spec (fun i => i % 12 + 1)
      (fun i => ⟨by show 1 ≤ i % 12 + 1; omega,
        by show i % 12 + 1 ≤ 12; omega⟩)).2 13
      (by omega)⟩

end PicSec
